import Mathlib

/-!
# Verification of the ldconfig cache codec, scanner and symlink reconciler

A shallow embedding of the core logic of the `ldconfig` repository:

* `src/internal/cache_format.rs` — the cache binary codec (`build_cache`,
  `parse_cache`, `arch_to_flags`, `add_string`);
* `src/symlinks.rs` — the symlink reconciler (`update_symlinks`,
  `find_highest_version_library`, `compare_library_versions`,
  `should_create_symlink`);
* `src/scanner.rs` and `src/hwcap.rs` — the directory scanner
  (`scan_all_libraries`, `is_dso`, `HwCap::from_path_component`,
  `HwCap::to_bitmask`).

Modelling conventions:

* Rust `str`/`String` values are modelled as their byte sequences
  (`List Nat`, each element a byte).  Rust string comparison is
  byte-lexicographic, which the model mirrors; `chars()` iteration in the
  version comparator is modelled byte-wise, which coincides with the source
  on ASCII names (digit tests only ever match ASCII bytes, and UTF-8 byte
  order agrees with code-point order).
* Machine integers are `Nat` with explicit reductions `% 2^32` / `% 2^64`
  at the points where the source truncates (`as u32`) or can wrap.
* Filesystem paths (`camino::Utf8PathBuf`) are modelled as lists of path
  components of an absolute path; `file_name` is the last component,
  `parent` drops it, and rendering joins the components with `/`.
* `Path::canonicalize` is an oracle `canon : Path → Option Path` supplied
  as a parameter (`none` models an `Err` from the syscall); the source
  falls back to the uncanonicalized path on error, as does the model.
* Partial operations whose failure is a Rust panic (out-of-bounds slice
  indexing, `unwrap` on `None`) are modelled as `Option` with `none` as
  the panic marker; the source's `parse_cache` returns `Result` but never
  constructs an `Err`, so its model returns `Option CacheInfo` where
  `none` marks a panic, never a typed error.
* The compile target is fixed as little-endian (`cfg!(target_endian =
  "little")` is `true`), matching the platforms the crate supports and the
  native-endian reads in `parse_cache`.
-/

namespace Ldconfig

/-- A Rust string modelled as its byte sequence. -/
abbrev RStr := List Nat

/-- Byte sequence of an ASCII string literal (used for concrete inputs). -/
def bytesOf (s : String) : RStr := s.data.map Char.toNat

/-- A filesystem path modelled as the component list of an absolute path. -/
abbrev RPath := List RStr

/-- `u8::is_ascii_digit`: the byte is one of `'0'..='9'`. -/
def isAsciiDigit (c : Nat) : Bool := 48 ≤ c && c ≤ 57

/-- The value accumulated by `compare_library_versions` over one maximal
digit run: `num = num * 10 + (ch - '0')` in wrapping `u64` arithmetic. -/
def digitRunVal (run : RStr) : Nat :=
  run.foldl (fun acc d => (acc * 10 + (d - 48)) % 2 ^ 64) 0

/-- Dropping a matched run never lengthens a list (termination helper). -/
theorem length_dropWhile_le' (p : Nat → Bool) (l : List Nat) :
    (l.dropWhile p).length ≤ l.length := by
  induction l with
  | nil => simp
  | cons a l ih =>
    by_cases h : p a
    · simp only [List.dropWhile_cons, h, if_pos, List.length_cons]
      omega
    · simp [List.dropWhile_cons, h]

/-- `compare_library_versions` from `src/symlinks.rs`: walks both names;
when both heads are ASCII digits it consumes the maximal digit runs of
both names and compares their accumulated `u64` values, otherwise it
compares single bytes, advancing only on equality. -/
def compareLibraryVersions : RStr → RStr → Ordering
  | [], [] => .eq
  | [], _ :: _ => .lt
  | _ :: _, [] => .gt
  | ac :: as_, bc :: bs_ =>
    if isAsciiDigit ac && isAsciiDigit bc then
      let aNum := digitRunVal ((ac :: as_).takeWhile isAsciiDigit)
      let bNum := digitRunVal ((bc :: bs_).takeWhile isAsciiDigit)
      if aNum ≠ bNum then
        compare aNum bNum
      else
        compareLibraryVersions ((ac :: as_).dropWhile isAsciiDigit)
          ((bc :: bs_).dropWhile isAsciiDigit)
    else
      if ac ≠ bc then compare ac bc
      else compareLibraryVersions as_ bs_
termination_by a b => a.length + b.length
decreasing_by
  · rename_i h
    simp only [Bool.and_eq_true] at h
    have hac : isAsciiDigit ac = true := h.1
    have hbc : isAsciiDigit bc = true := h.2
    have ha := length_dropWhile_le' isAsciiDigit as_
    have hb := length_dropWhile_le' isAsciiDigit bs_
    simp only [List.dropWhile_cons, hac, hbc, if_pos, List.length_cons]
    omega
  · simp only [List.length_cons]; omega

/-- The supported architecture set of `src/internal/cache_format.rs`
(`ElfArch` in `src/internal/elf.rs`). -/
inductive ElfArch where
  | x86_64 | aarch64 | riscv64 | powerpc64 | i686 | arm
deriving DecidableEq, Repr

/-- `ElfLibrary` from `src/internal/elf.rs`: the library descriptor. -/
structure ElfLibrary where
  soname : RStr
  path : RPath
  is64bit : Bool
  isHardfloat : Bool
  arch : ElfArch
  osversion : Nat
  hwcap : Option Nat
deriving DecidableEq, Repr

/-- Render a component-list path the way `Utf8Path::as_str` would:
`/c₀/c₁/…`; the empty list renders as the root `/`. -/
def renderPath (p : RPath) : RStr :=
  if p = [] then [47] else p.foldl (fun acc c => acc ++ 47 :: c) []

/-- `lib.path.file_name().unwrap_or(lib.path.as_str())` as used throughout
`build_cache`: the last path component, falling back to the rendered path. -/
def fileNameOrPath (p : RPath) : RStr := (p.getLast?).getD (renderPath p)

/-- `best_lib.path.file_name().unwrap_or("")` as used in `update_symlinks`. -/
def fileNameOrEmpty (p : RPath) : RStr := (p.getLast?).getD []

/-- `find_highest_version_library` from `src/symlinks.rs`:
`Iterator::max_by` keeps the later element on ties, so the fold replaces
the accumulator unless the candidate compares strictly below it; the
source indexes `libs[0]` on an empty slice, which is the `none` case. -/
def findHighestVersionLibrary (libs : List ElfLibrary) : Option ElfLibrary :=
  match libs with
  | [] => none
  | l :: ls =>
    some (ls.foldl (fun acc x =>
      if compareLibraryVersions (fileNameOrEmpty x.path)
          (fileNameOrEmpty acc.path) = .lt then acc else x) l)

/-- Rust `str::cmp`: lexicographic comparison of the byte sequences. -/
def rstrCmp : RStr → RStr → Ordering
  | [], [] => .eq
  | [], _ :: _ => .lt
  | _ :: _, [] => .gt
  | a :: as_, b :: bs_ =>
    match compare a b with
    | .eq => rstrCmp as_ bs_
    | o => o

/-- The filename key `build_cache`'s sort extracts from each descriptor
(`path.file_name().unwrap_or(path.as_str())`). -/
def libName (l : ElfLibrary) : RStr := fileNameOrPath l.path

/-- The tie-break key of `build_cache`'s sort (`hwcap.unwrap_or(0)`). -/
def libHw (l : ElfLibrary) : Nat := l.hwcap.getD 0

/-- The `sort_by` comparator of `build_cache`: filename in reverse
(descending) lexicographic order, then capability bitmask descending. -/
def buildSortCmp (a b : ElfLibrary) : Ordering :=
  match rstrCmp (libName b) (libName a) with
  | .eq => compare (libHw b) (libHw a)
  | o => o

/-- The non-strict order `build_cache`'s `sort_by` arranges by: `a` may
precede `b` when the comparator does not answer `Greater`. -/
def buildSortRel (a b : ElfLibrary) : Prop := buildSortCmp a b ≠ .gt

instance : DecidableRel buildSortRel := fun a b =>
  inferInstanceAs (Decidable (buildSortCmp a b ≠ .gt))

/-- `sorted_libs` of `build_cache`: Rust's stable `sort_by` is modelled
as a stable insertion sort under the non-strict comparator; all stable
sorts of the same total preorder produce the same list, so this is the
output of `sort_by`. -/
def sortLibraries (libs : List ElfLibrary) : List ElfLibrary :=
  libs.insertionSort buildSortRel

/-! Flag constants from `src/internal/cache_format.rs` (the subset
`arch_to_flags` uses). -/

def FLAG_ELF_LIBC6 : Nat := 0x0003
def FLAG_X8664_LIB64 : Nat := 0x0300
def FLAG_POWERPC_LIB64 : Nat := 0x0500
def FLAG_ARM_LIBHF : Nat := 0x0900
def FLAG_AARCH64_LIB64 : Nat := 0x0a00
def FLAG_RISCV_FLOAT_ABI_DOUBLE : Nat := 0x1000

/-- `arch_to_flags` from `src/internal/cache_format.rs`.  The bitwise ORs
of the source are additions here: the architecture field occupies bits
8–15 and `FLAG_ELF_LIBC6` bits 0–7, so the operands never share bits. -/
def archToFlags (arch : ElfArch) (is64bit isHardfloat : Bool) : Nat :=
  match arch with
  | .x86_64 => if is64bit then FLAG_X8664_LIB64 + FLAG_ELF_LIBC6 else FLAG_ELF_LIBC6
  | .aarch64 => FLAG_AARCH64_LIB64 + FLAG_ELF_LIBC6
  | .riscv64 => FLAG_RISCV_FLOAT_ABI_DOUBLE + FLAG_ELF_LIBC6
  | .powerpc64 => FLAG_POWERPC_LIB64 + FLAG_ELF_LIBC6
  | .i686 => FLAG_ELF_LIBC6
  | .arm => if isHardfloat then FLAG_ARM_LIBHF + FLAG_ELF_LIBC6 else FLAG_ELF_LIBC6

/-- The interning state of `build_cache`: the string-table bytes built so
far and the string → table-relative-offset map (`string_offsets`; the
`HashMap` is modelled as an association list keyed by the string). -/
structure StringTable where
  table : RStr
  offsets : List (RStr × Nat)
deriving Repr

/-- `add_string` from `src/internal/cache_format.rs`: intern a string,
appending its bytes and a NUL terminator and recording the offset
(`table.len() as u32`) only on first occurrence. -/
def addString (st : StringTable) (s : RStr) : StringTable :=
  if (st.offsets.lookup s).isSome then st
  else { table := st.table ++ s ++ [0],
         offsets := st.offsets ++ [(s, st.table.length % 2 ^ 32)] }

/-- `lib.path.parent().unwrap_or(Utf8Path::new(""))`: drop the last
component (the model conflates the empty path and the root). -/
def dirOf (p : RPath) : RPath := p.dropLast

/-- The `canonical_path` of `build_cache`: canonicalize the directory only
(falling back to it unchanged on error) and rejoin the filename. -/
def canonicalPathOf (canon : RPath → Option RPath) (p : RPath) : RPath :=
  ((canon (dirOf p)).getD (dirOf p)) ++ [fileNameOrPath p]

/-- The `path_to_add` of `build_cache`: the canonical path rendered as a
string, rewritten relative to the canonicalized root prefix (with a
leading separator) when one is configured and it is a component-wise
prefix of the path. -/
def pathToAdd (canon : RPath → Option RPath) (pre : Option RPath) (p : RPath) : RStr :=
  let cpath := canonicalPathOf canon p
  match pre with
  | some pr =>
    let cpre := (canon pr).getD pr
    if cpre.isPrefixOf cpath then renderPath (cpath.drop cpre.length)
    else renderPath cpath
  | none => renderPath cpath

/-- `u32::to_le_bytes` (the argument is reduced modulo `2^32` by the
byte extraction itself). -/
def le32 (n : Nat) : List Nat :=
  [n % 256, n / 256 % 256, n / 65536 % 256, n / 16777216 % 256]

/-- `u64::to_le_bytes`. -/
def le64 (n : Nat) : List Nat :=
  [n % 256, n / 256 % 256, n / 2 ^ 16 % 256, n / 2 ^ 24 % 256,
   n / 2 ^ 32 % 256, n / 2 ^ 40 % 256, n / 2 ^ 48 % 256, n / 2 ^ 56 % 256]

/-- `CacheEntry`: one 24-byte cache entry (fields are `u32`/`u64`). -/
structure CacheEntry where
  flags : Nat
  keyOffset : Nat
  valueOffset : Nat
  osversion : Nat
  hwcap : Nat
deriving DecidableEq, Repr

/-- `CacheHeader` as `parse_cache` reconstructs it. -/
structure CacheHeader where
  magic : RStr
  nlibs : Nat
  lenStrings : Nat
deriving DecidableEq, Repr

/-- `CacheInfo`: the result of `parse_cache`. -/
structure CacheInfo where
  header : CacheHeader
  entries : List CacheEntry
  stringTable : List RStr
  generator : Option RStr
deriving DecidableEq, Repr

/-- `CACHE_MAGIC`: the 20-byte ASCII magic `glibc-ld.so.cache1.1`. -/
def cacheMagic : List Nat := bytesOf "glibc-ld.so.cache1.1"

/-- Modelled from the spec: the generator string is the implementation
name and version (`ldconfig-rs {CARGO_PKG_VERSION}`); the crate manifest
carrying the version number is not among the sources, so the version is
fixed as `0.1.0`.  No theorem depends on its contents, only on its
placement in the byte stream. -/
def generatorBytes : List Nat := bytesOf "ldconfig-rs 0.1.0"

/-- The string table built by `build_cache`'s first pass over the sorted
descriptors: intern each filename, then each rewritten path. -/
def buildStringTable (canon : RPath → Option RPath) (pre : Option RPath)
    (sorted : List ElfLibrary) : StringTable :=
  sorted.foldl (fun st lib =>
    addString (addString st (fileNameOrPath lib.path))
      (pathToAdd canon pre lib.path)) ⟨[], []⟩

/-- The entry `build_cache`'s second pass writes for one descriptor:
string offsets become absolute by adding the header+entries region length
(`as u32` wrap-around kept explicit); a missing interned string falls
back to relative offset `0` as in the source's `unwrap_or_else`. -/
def entryFor (canon : RPath → Option RPath) (pre : Option RPath)
    (st : StringTable) (base32 : Nat) (lib : ElfLibrary) : CacheEntry :=
  { flags := archToFlags lib.arch lib.is64bit lib.isHardfloat
    keyOffset := (base32 + (st.offsets.lookup (fileNameOrPath lib.path)).getD 0) % 2 ^ 32
    valueOffset := (base32 + (st.offsets.lookup (pathToAdd canon pre lib.path)).getD 0) % 2 ^ 32
    osversion := lib.osversion % 2 ^ 32
    hwcap := lib.hwcap.getD 0 % 2 ^ 64 }

/-- The 24-byte little-endian wire form of one entry. -/
def entryBytes (e : CacheEntry) : List Nat :=
  le32 e.flags ++ le32 e.keyOffset ++ le32 e.valueOffset ++
    le32 e.osversion ++ le64 e.hwcap

/-- The 48-byte header `build_cache` emits once all three patched fields
are known: magic, `nlibs`, `len_strings`, the endianness tag (`2` on the
little-endian targets modelled here), alignment padding, the extension
offset, and 12 reserved zero bytes. -/
def headerBytes (n ls extOff : Nat) : List Nat :=
  cacheMagic ++ le32 (n % 2 ^ 32) ++ le32 (ls % 2 ^ 32) ++
    [2] ++ [0, 0, 0] ++ le32 (extOff % 2 ^ 32) ++ List.replicate 12 0

/-- The extension section `build_cache` appends: magic `0xEAA42174`, one
subsection, a tag-0 descriptor pointing 24 bytes past the section start,
and the NUL-terminated generator string. -/
def extBytes (extOff : Nat) : List Nat :=
  le32 0xEAA42174 ++ le32 1 ++
    le32 0 ++ le32 0 ++ le32 ((extOff % 2 ^ 32 + 24) % 2 ^ 32) ++
    le32 (generatorBytes.length % 2 ^ 32) ++
    generatorBytes ++ [0]

/-- `build_cache` from `src/internal/cache_format.rs`.  The source writes
placeholder header fields and patches `nlibs`, `len_strings` and
`extension_offset` once known; the model emits the patched bytes
directly, which is byte-for-byte the same output. -/
def buildCache (canon : RPath → Option RPath) (pre : Option RPath)
    (libraries : List ElfLibrary) : List Nat :=
  let sorted := sortLibraries libraries
  let st := buildStringTable canon pre sorted
  let base := 48 + 24 * sorted.length
  let entriesB := (sorted.map fun lib =>
    entryBytes (entryFor canon pre st (base % 2 ^ 32) lib)).flatten
  let lenBeforePad := base + st.table.length
  let padLen := (4 - lenBeforePad % 4) % 4
  let extOff := lenBeforePad + padLen
  headerBytes sorted.length st.table.length extOff ++
    entriesB ++ st.table ++ List.replicate padLen 0 ++ extBytes extOff

/-- `u32::from_le_bytes` over four indexed loads; `none` is the Rust
panic on an out-of-bounds index.  `from_ne_bytes` in the header reads
coincides on the little-endian targets modelled here. -/
def readU32? (d : List Nat) (i : Nat) : Option Nat := do
  let b0 ← d[i]?
  let b1 ← d[i + 1]?
  let b2 ← d[i + 2]?
  let b3 ← d[i + 3]?
  pure (b0 + 256 * b1 + 65536 * b2 + 16777216 * b3)

/-- `u64::from_le_bytes` over eight indexed loads (`none` = panic). -/
def readU64? (d : List Nat) (i : Nat) : Option Nat := do
  let b0 ← d[i]?
  let b1 ← d[i + 1]?
  let b2 ← d[i + 2]?
  let b3 ← d[i + 3]?
  let b4 ← d[i + 4]?
  let b5 ← d[i + 5]?
  let b6 ← d[i + 6]?
  let b7 ← d[i + 7]?
  pure (b0 + 2 ^ 8 * b1 + 2 ^ 16 * b2 + 2 ^ 24 * b3 +
    2 ^ 32 * b4 + 2 ^ 40 * b5 + 2 ^ 48 * b6 + 2 ^ 56 * b7)

/-- One iteration of `parse_cache`'s entry loop: the five fields read at
byte offset `48 + 24 * i`. -/
def readEntry? (d : List Nat) (off : Nat) : Option CacheEntry := do
  let flags ← readU32? d off
  let key ← readU32? d (off + 4)
  let value ← readU32? d (off + 8)
  let osv ← readU32? d (off + 12)
  let hw ← readU64? d (off + 16)
  pure { flags := flags, keyOffset := key, valueOffset := value,
         osversion := osv, hwcap := hw }

/-- `parse_cache`'s entry loop (`for i in 0..nlibs`), reading entry `i`
at `48 + 24 * i`; the first out-of-bounds access aborts (panic). -/
def readEntriesFrom? (d : List Nat) : Nat → Nat → Option (List CacheEntry)
  | _, 0 => some []
  | i, count + 1 => do
    let e ← readEntry? d (48 + 24 * i)
    let rest ← readEntriesFrom? d (i + 1) count
    pure (e :: rest)

/-- `parse_cache`'s string-table split: the segments between NUL bytes,
skipping empty ones; a trailing unterminated segment is never pushed. -/
def splitStrings (s : List Nat) : List RStr :=
  ((s.splitOn 0).dropLast).filter fun seg => !seg.isEmpty

/-- `parse_cache`'s extension walk, given an in-bounds extension header:
scan `count` 16-byte descriptors, remembering the (last) tag-0 payload
whose data range lies within the file.  All reads here are guarded by
bounds tests in the source, so this part never panics. -/
def extGenerator (d : List Nat) (extOff count : Nat) : Option RStr :=
  (List.range count).foldl (fun acc i =>
    let so := extOff + 8 + i * 16
    if so + 16 ≤ d.length then
      let tag := (readU32? d so).getD 0
      let dataOff := (readU32? d (so + 8)).getD 0
      let dataSize := (readU32? d (so + 12)).getD 0
      if tag = 0 ∧ dataOff + dataSize ≤ d.length then
        some ((d.drop dataOff).take dataSize)
      else acc
    else acc) none

/-- `parse_cache`'s extension section handling: nothing is extracted
unless `extension_offset` is nonzero, the 24-byte window fits, and the
extension magic matches. -/
def parseExtension (d : List Nat) (extOff : Nat) : Option RStr :=
  if 0 < extOff ∧ extOff + 24 ≤ d.length then
    if (readU32? d extOff).getD 0 = 0xEAA42174 then
      extGenerator d extOff ((readU32? d (extOff + 4)).getD 0)
    else none
  else none

/-- `parse_cache` from `src/internal/cache_format.rs` (and its duplicate
`parse_cache_data` in `src/cache_reader.rs`, which has the same body).
`none` models a Rust panic: an out-of-bounds header read, a truncated
entry, or a string-table slice whose start exceeds the data length.  The
source's `Result` never carries an `Err`: every non-panicking run returns
`Ok`. -/
def parseCache (d : List Nat) : Option CacheInfo := do
  let magic ← if 20 ≤ d.length then some (d.take 20) else none
  let nlibs ← readU32? d 20
  let lenStrings ← readU32? d 24
  let entries ← readEntriesFrom? d 0 nlibs
  let start := 48 + 24 * nlibs
  let stop := min (start + lenStrings) d.length
  let stringData ← if start ≤ d.length then some ((d.drop start).take (stop - start))
    else none
  let extOff ← readU32? d 32
  pure { header := { magic := magic, nlibs := nlibs, lenStrings := lenStrings }
         entries := entries
         stringTable := splitStrings stringData
         generator := parseExtension d extOff }

/-- The `extract_string` helper of `src/bin/ldconfig.rs`: resolve the
NUL-terminated string at an absolute file offset, failing (with a typed
error in the source) when the offset is at or past the end of the data. -/
def extractString (d : List Nat) (off : Nat) : Option RStr :=
  if off < d.length then some ((d.drop off).takeWhile fun b => !(b == 0))
  else none

/-! ### Symlink reconciler (`src/symlinks.rs`) -/

/-- A filesystem object: a regular file (or directory) or a symlink
carrying its raw stored target. -/
inductive FsObj where
  | file
  | symlink (target : RPath)
deriving DecidableEq, Repr

/-- The filesystem state the reconciler reads and mutates: a finite map
from paths to objects, plus a `Path::canonicalize` oracle (`none` models
the syscall failing; callers fall back to the uncanonicalized path).  The
oracle is a fixed field: the model does not re-derive canonicalization
from the object map. -/
structure Fs where
  objects : List (RPath × FsObj)
  canon : RPath → Option RPath

/-- Look up the object at a path. -/
def fsLookup (fs : Fs) (p : RPath) : Option FsObj := fs.objects.lookup p

/-- `std::fs::symlink_metadata(..).file_type().is_symlink()`, with the
source's `unwrap_or(false)` for a missing path. -/
def isSymlinkAt (fs : Fs) (p : RPath) : Bool :=
  match fsLookup fs p with
  | some (.symlink _) => true
  | _ => false

/-- `Path::exists`: an object is present at the path.  (The Rust call
also resolves symlink chains; the model equates existence with an object
being present, which agrees on regular files and resolvable links.) -/
def existsAt (fs : Fs) (p : RPath) : Bool := (fsLookup fs p).isSome

/-- `fs::read_link`: the stored target of a symlink, erring (`none`) on
a missing path or a non-symlink. -/
def readLinkAt (fs : Fs) (p : RPath) : Option RPath :=
  match fsLookup fs p with
  | some (.symlink t) => some t
  | _ => none

/-- `p.canonicalize().unwrap_or(p)` as `should_create_symlink` uses it on
both the current and the intended target. -/
def canonF (fs : Fs) (p : RPath) : RPath := (fs.canon p).getD p

/-- Remove the object at a path (`fs::remove_file`, errors ignored). -/
def fsRemove (objs : List (RPath × FsObj)) (p : RPath) : List (RPath × FsObj) :=
  objs.filter fun e => !(e.1 == p)

/-- `should_create_symlink` from `src/symlinks.rs`: create when nothing
exists at the link path; otherwise read the current target and compare
the canonicalized current and intended targets, creating exactly when
they differ; an unreadable link also means create.  The source's
`Result` is always `Ok`. -/
def shouldCreateSymlink (fs : Fs) (link target : RPath) : Bool :=
  if !existsAt fs link then true
  else
    match readLinkAt fs link with
    | some current => decide (canonF fs current ≠ canonF fs target)
    | none => true

/-- `SymlinkActionType` from `src/symlinks.rs`. -/
inductive SymlinkActionType where
  | create | update | skip
deriving DecidableEq, Repr

/-- `SymlinkAction`: the target is the bare filename (the source stores
`Utf8PathBuf::from(filename)`, a one-component relative path). -/
structure SymlinkAction where
  target : RStr
  link : RPath
  action : SymlinkActionType
deriving DecidableEq, Repr

/-- The non-symlink descriptors `update_symlinks` groups (the others are
dropped before grouping). -/
def realFileLibs (fs : Fs) (libs : List ElfLibrary) : List ElfLibrary :=
  libs.filter fun l => !isSymlinkAt fs l.path

/-- The grouping keys in first-appearance order.  (The source iterates a
`HashMap` in unspecified order; the model fixes the order sonames first
occur, which no theorem below depends on beyond determinism.) -/
def groupSonames (libs : List ElfLibrary) : List RStr :=
  libs.foldl (fun acc l => if acc.contains l.soname then acc else acc ++ [l.soname]) []

/-- One group iteration of `update_symlinks`: pick the highest-versioned
member, and if its filename differs from the soname, decide whether the
`soname → filename` link in the same directory must be (re)created; the
pushed action is always `Create`.  Without dry-run the link is written
into the threaded filesystem (remove whatever is at the path, then
symlink).  `none` models the source panics: `libs[0]` on an empty slice
inside `find_highest_version_library` and `.parent().unwrap()` on a
rootless path. -/
def processGroup (dryRun : Bool) (acc : List SymlinkAction × Fs)
    (g : RStr × List ElfLibrary) : Option (List SymlinkAction × Fs) :=
  if g.2.isEmpty then some acc
  else do
    let best ← findHighestVersionLibrary g.2
    let filename := fileNameOrEmpty best.path
    if filename ≠ g.1 then do
      let parent ← if best.path = [] then none else some (dirOf best.path)
      let link := parent ++ [g.1]
      if shouldCreateSymlink acc.2 link best.path then
        let acts := acc.1 ++ [⟨filename, link, .create⟩]
        if dryRun then some (acts, acc.2)
        else some (acts, { acc.2 with
          objects := (link, .symlink [filename]) :: fsRemove acc.2.objects link })
      else some acc
    else some acc

/-- `update_symlinks` from `src/symlinks.rs`: group the non-symlink
descriptors by soname, then process each group, threading the filesystem
state through the (non-dry-run) mutations. -/
def updateSymlinks (fs : Fs) (libraries : List ElfLibrary) (dryRun : Bool) :
    Option (List SymlinkAction × Fs) :=
  let rl := realFileLibs fs libraries
  let groups := (groupSonames rl).map fun s => (s, rl.filter fun l => l.soname == s)
  groups.foldlM (processGroup dryRun) ([], fs)

/-! ### Directory scanner (`src/scanner.rs`, `src/hwcap.rs`) -/

/-- Rust `str::contains` for a literal needle: some suffix of the
haystack starts with it. -/
def rstrContains (hay needle : RStr) : Bool :=
  (List.range (hay.length + 1)).any fun i => needle.isPrefixOf (hay.drop i)

/-- `is_dso` from `src/scanner.rs`: `lib*`/`ld-*` names containing `.so`,
or the `ld.so.*` / `ld64.so.*` loader name patterns. -/
def isDso (name : RStr) : Bool :=
  (((bytesOf "lib").isPrefixOf name || (bytesOf "ld-").isPrefixOf name) &&
    rstrContains name (bytesOf ".so")) ||
  (bytesOf "ld.so.").isPrefixOf name ||
  (bytesOf "ld64.so.").isPrefixOf name

/-- `should_scan_library`: the DSO filter applied to the file name. -/
def shouldScanLibrary (p : RPath) : Bool :=
  match p.getLast? with
  | some n => isDso n
  | none => false

/-- `HwCap` from `src/hwcap.rs`. -/
inductive HwCap where
  | haswell | avx512 | sse | sve2 | power9
  | custom (s : RStr)
deriving DecidableEq, Repr

/-- `HwCap::from_path_component`: the fixed vocabulary of capability-tier
directory names. -/
def hwcapFromPathComponent (c : RStr) : Option HwCap :=
  if c = bytesOf "x86-64-v2" ∨ c = bytesOf "x86-64-v3" ∨ c = bytesOf "x86-64-v4" then
    some (.custom c)
  else if c = bytesOf "haswell" then some .haswell
  else if c = bytesOf "avx512" then some .avx512
  else if c = bytesOf "sse" then some .sse
  else if c = bytesOf "asimd" ∨ c = bytesOf "neon" then some (.custom c)
  else if c = bytesOf "sve2" then some .sve2
  else if c = bytesOf "power9" ∨ c = bytesOf "power10" then some .power9
  else none

/-- `HwCap::to_bitmask`: kernel-style bitmask per (architecture, tag)
pair; anything unmapped — including `(x86_64, sse)`, which is mapped
explicitly to `0x00` — yields `0`. -/
def hwcapToBitmask (h : HwCap) (arch : ElfArch) : Nat :=
  match arch, h with
  | .x86_64, .custom s =>
    if s = bytesOf "x86-64-v2" then 0x01
    else if s = bytesOf "x86-64-v3" then 0x02
    else if s = bytesOf "x86-64-v4" then 0x04
    else 0
  | .x86_64, .haswell => 0x02
  | .x86_64, .avx512 => 0x04
  | .x86_64, .sse => 0x00
  | .aarch64, .custom s =>
    if s = bytesOf "asimd" ∨ s = bytesOf "neon" then 2 else 0
  | .aarch64, .sve2 => 4
  | .powerpc64, .power9 => 1
  | .powerpc64, .custom s => if s = bytesOf "power10" then 2 else 0
  | _, _ => 0

/-- A directory entry as the scanner's filesystem oracle reports it:
name, `is_file`, `is_dir`, and `symlink_metadata` symlink-ness. -/
structure DirEntry where
  name : RStr
  isFile : Bool
  isDir : Bool
  isSymlink : Bool
deriving DecidableEq, Repr

/-- The scanner's view of the filesystem plus the external ELF
introspection capability: `readDir` returning `none` models an
`io::Error` (propagated by `?` in the source), and `parseElf` returning
`none` models `parse_elf_file` silently rejecting the file. -/
structure ScanFs where
  dirExists : RPath → Bool
  readDir : RPath → Option (List DirEntry)
  parseElf : RPath → Option ElfLibrary

/-- The base-directory loop body of `scan_all_libraries`: keep files
whose names pass the DSO filter and that the ELF capability accepts,
split by symlink-ness. -/
def scanBaseEntries (fs : ScanFs) (dir : RPath) (es : List DirEntry)
    (acc : List ElfLibrary × List ElfLibrary) : List ElfLibrary × List ElfLibrary :=
  es.foldl (fun acc e =>
    let path := dir ++ [e.name]
    if e.isFile && shouldScanLibrary path then
      match fs.parseElf path with
      | some lib =>
        if e.isSymlink then (acc.1, acc.2 ++ [lib]) else (acc.1 ++ [lib], acc.2)
      | none => acc
    else acc) acc

/-- The capability-subdirectory loop body of `scan_all_libraries`: like
the base scan, except every accepted descriptor's bitmask is overwritten
with `Some(hwcap.to_bitmask(lib.arch))`. -/
def scanHwcapEntries (fs : ScanFs) (dir : RPath) (hw : HwCap) (es : List DirEntry)
    (acc : List ElfLibrary × List ElfLibrary) : List ElfLibrary × List ElfLibrary :=
  es.foldl (fun acc e =>
    let path := dir ++ [e.name]
    if e.isFile && shouldScanLibrary path then
      match fs.parseElf path with
      | some lib =>
        let lib := { lib with hwcap := some (hwcapToBitmask hw lib.arch) }
        if e.isSymlink then (acc.1, acc.2 ++ [lib]) else (acc.1 ++ [lib], acc.2)
      | none => acc
    else acc) acc

/-- `detect_hwcap_dirs` from `src/hwcap.rs`: the immediate
subdirectories whose names the registry recognizes, paired with their
tags; an absent base directory yields the empty list. -/
def detectHwcapDirs (fs : ScanFs) (dir : RPath) : Option (List (RPath × HwCap)) :=
  if !fs.dirExists dir then some []
  else (fs.readDir dir).map fun es =>
    es.foldl (fun acc e =>
      if e.isDir then
        match hwcapFromPathComponent e.name with
        | some hw => acc ++ [(dir ++ [e.name], hw)]
        | none => acc
      else acc) []

/-- `scan_all_libraries` from `src/scanner.rs`: for each search
directory that exists, scan it, then scan each recognized capability
subdirectory with the bitmask override; a directory read error aborts
the whole scan (`none` = the propagated `io::Error`). -/
def scanAllLibraries (fs : ScanFs) (dirs : List RPath) :
    Option (List ElfLibrary × List ElfLibrary) :=
  dirs.foldlM (fun acc dir => do
    if !fs.dirExists dir then pure acc
    else do
      let es ← fs.readDir dir
      let acc := scanBaseEntries fs dir es acc
      let hds ← detectHwcapDirs fs dir
      hds.foldlM (fun acc hd => do
        let es2 ← fs.readDir hd.1
        pure (scanHwcapEntries fs hd.1 hd.2 es2 acc)) acc) ([], [])

/-! ### Concrete sample inputs used by witnesses and counterexamples -/

/-- A canonicalization oracle on which every `canonicalize` call fails,
so the source's fallbacks keep paths unchanged. -/
def noCanon : RPath → Option RPath := fun _ => none

/-- Sample descriptor: the real file `/usr/lib/libfoo.so.2`. -/
def sampleLibA : ElfLibrary :=
  { soname := bytesOf "libfoo.so.2"
    path := [bytesOf "usr", bytesOf "lib", bytesOf "libfoo.so.2"]
    is64bit := true, isHardfloat := false, arch := .x86_64
    osversion := 0, hwcap := none }

/-- Sample descriptor: the development symlink name `/usr/lib/libfoo.so`
with a capability bitmask. -/
def sampleLibB : ElfLibrary :=
  { soname := bytesOf "libfoo.so"
    path := [bytesOf "usr", bytesOf "lib", bytesOf "libfoo.so"]
    is64bit := true, isHardfloat := false, arch := .x86_64
    osversion := 0, hwcap := some 4 }

/-- Sample descriptor for the reconciler: the real file
`/usr/lib/libfoo.so.1.5` whose soname is `libfoo.so.1`. -/
def sampleReconLib : ElfLibrary :=
  { soname := bytesOf "libfoo.so.1"
    path := [bytesOf "usr", bytesOf "lib", bytesOf "libfoo.so.1.5"]
    is64bit := true, isHardfloat := false, arch := .x86_64
    osversion := 0, hwcap := none }

/-- Filesystem for the reconciler scenarios: the real file exists, and a
symlink already sits at `/usr/lib/libfoo.so.1` but points at the stale
`libfoo.so.1.0`; canonicalization always falls back. -/
def sampleFsStale : Fs :=
  { objects :=
      [([bytesOf "usr", bytesOf "lib", bytesOf "libfoo.so.1.5"], .file),
       ([bytesOf "usr", bytesOf "lib", bytesOf "libfoo.so.1"],
        .symlink [bytesOf "libfoo.so.1.0"])]
    canon := noCanon }

/-- Scanner filesystem: `/lib` contains the capability subdirectory
`sse`, holding `libfoo.so.1`, an x86-64 object whose path-based bitmask
pre-guess is `Some 5`. -/
def sampleScanFs : ScanFs :=
  { dirExists := fun p => p = [bytesOf "lib"] || p = [bytesOf "lib", bytesOf "sse"]
    readDir := fun p =>
      if p = [bytesOf "lib"] then some [⟨bytesOf "sse", false, true, false⟩]
      else if p = [bytesOf "lib", bytesOf "sse"] then
        some [⟨bytesOf "libfoo.so.1", true, false, false⟩]
      else none
    parseElf := fun p =>
      if p = [bytesOf "lib", bytesOf "sse", bytesOf "libfoo.so.1"] then
        some { soname := bytesOf "libfoo.so.1"
               path := [bytesOf "lib", bytesOf "sse", bytesOf "libfoo.so.1"]
               is64bit := true, isHardfloat := false, arch := .x86_64
               osversion := 0, hwcap := some 5 }
      else none }

/-- Like `sampleScanFs` but with the `haswell` tier, whose path-based
pre-guess (`1`, from `detect_hwcap_from_path`) differs from the
architecture-aware bitmask (`2`). -/
def sampleScanFsH : ScanFs :=
  { dirExists := fun p => p = [bytesOf "lib"] || p = [bytesOf "lib", bytesOf "haswell"]
    readDir := fun p =>
      if p = [bytesOf "lib"] then some [⟨bytesOf "haswell", false, true, false⟩]
      else if p = [bytesOf "lib", bytesOf "haswell"] then
        some [⟨bytesOf "libfoo.so.1", true, false, false⟩]
      else none
    parseElf := fun p =>
      if p = [bytesOf "lib", bytesOf "haswell", bytesOf "libfoo.so.1"] then
        some { soname := bytesOf "libfoo.so.1"
               path := [bytesOf "lib", bytesOf "haswell", bytesOf "libfoo.so.1"]
               is64bit := true, isHardfloat := false, arch := .x86_64
               osversion := 0, hwcap := some 1 }
      else none }

/-- The name's final byte is an ASCII digit. -/
def endsInDigit (a : RStr) : Bool :=
  match a.getLast? with
  | some c => isAsciiDigit c
  | none => false

/-- The name's first byte is an ASCII digit. -/
def startsWithDigit (s : RStr) : Bool :=
  match s.head? with
  | some d => isAsciiDigit d
  | none => false

/-- Tie sample: the real file `/usr/lib/libfoo.so.010`. -/
def sampleTieA : ElfLibrary :=
  { soname := bytesOf "libfoo.so.1"
    path := [bytesOf "usr", bytesOf "lib", bytesOf "libfoo.so.010"]
    is64bit := true, isHardfloat := false, arch := .x86_64
    osversion := 0, hwcap := none }

/-- Tie sample: the real file `/usr/lib/libfoo.so.10`, a different
filename whose digit run has the same numeric value. -/
def sampleTieB : ElfLibrary :=
  { soname := bytesOf "libfoo.so.1"
    path := [bytesOf "usr", bytesOf "lib", bytesOf "libfoo.so.10"]
    is64bit := true, isHardfloat := false, arch := .x86_64
    osversion := 0, hwcap := none }

/-- The descriptor `sampleScanFsH`'s scan produces for the file under
the `haswell` tier: the pre-guessed bitmask `1` has been overridden with
`to_bitmask(haswell, x86_64) = 2`. -/
def sampleHLib : ElfLibrary :=
  { soname := bytesOf "libfoo.so.1"
    path := [bytesOf "lib", bytesOf "haswell", bytesOf "libfoo.so.1"]
    is64bit := true, isHardfloat := false, arch := .x86_64
    osversion := 0, hwcap := some 2 }

/-- A 47-byte stream: shorter than the 48-byte header. -/
def truncatedHeader : List Nat := List.replicate 47 0

/-- A complete 48-byte header whose `nlibs` field promises one 24-byte
entry that the data does not contain. -/
def headerPromisingOneEntry : List Nat :=
  cacheMagic ++ le32 1 ++ le32 0 ++ [2, 0, 0, 0] ++ le32 0 ++ List.replicate 12 0

/-- A header plus one well-formed 24-byte entry whose string offsets
(`0xFFFFFFFF`) point far outside the 72-byte file. -/
def entryWithHugeOffsets : List Nat :=
  headerPromisingOneEntry ++
    le32 0 ++ le32 4294967295 ++ le32 4294967295 ++ le32 0 ++ le64 0

/-! ### Order-theoretic properties of the build comparator -/

/-- Unfolding equation for `rstrCmp` on two nonempty strings. -/
theorem rstrCmp_cons_cons (a b : Nat) (as_ bs_ : RStr) :
    rstrCmp (a :: as_) (b :: bs_) =
      match compare a b with
      | .eq => rstrCmp as_ bs_
      | o => o := rfl

/-- `Nat.compare` swaps with its arguments. -/
theorem natCompare_swap (m n : Nat) : (compare m n).swap = compare n m := by
  rcases Nat.lt_trichotomy m n with h | h | h
  · rw [Nat.compare_eq_lt.2 h, Nat.compare_eq_gt.2 h]; rfl
  · subst h; rw [Nat.compare_eq_eq.2 rfl]; rfl
  · rw [Nat.compare_eq_gt.2 h, Nat.compare_eq_lt.2 h]; rfl

/-- `rstrCmp` answers `eq` exactly on equal byte strings. -/
theorem rstrCmp_eq_iff : ∀ {x y : RStr}, rstrCmp x y = .eq ↔ x = y := by
  intro x
  induction x with
  | nil => intro y; cases y <;> simp [rstrCmp]
  | cons a as ih =>
    intro y
    cases y with
    | nil => simp [rstrCmp]
    | cons b bs =>
      rw [rstrCmp_cons_cons]
      rcases h : compare a b with h1 | h1 | h1
      · have hab := Nat.compare_eq_lt.1 h
        simp only [List.cons.injEq]
        constructor
        · intro hh; exact absurd hh (by decide)
        · intro hh; omega
      · have hab := Nat.compare_eq_eq.1 h
        subst hab
        rw [ih]
        simp
      · have hab := Nat.compare_eq_gt.1 h
        simp only [List.cons.injEq]
        constructor
        · intro hh; exact absurd hh (by decide)
        · intro hh; omega

/-- Swapping the arguments of `rstrCmp` swaps the verdict. -/
theorem rstrCmp_swap : ∀ (x y : RStr), (rstrCmp x y).swap = rstrCmp y x := by
  intro x
  induction x with
  | nil => intro y; cases y <;> rfl
  | cons a as ih =>
    intro y
    cases y with
    | nil => rfl
    | cons b bs =>
      rw [rstrCmp_cons_cons, rstrCmp_cons_cons, ← natCompare_swap a b]
      rcases h : compare a b with h1 | h1 | h1
      · rfl
      · exact ih bs
      · rfl

/-- `rstrCmp` verdicts `lt` compose transitively. -/
theorem rstrCmp_lt_trans : ∀ {x y z : RStr},
    rstrCmp x y = .lt → rstrCmp y z = .lt → rstrCmp x z = .lt := by
  intro x
  induction x with
  | nil =>
    intro y z hxy hyz
    cases y with
    | nil => simp [rstrCmp] at hxy
    | cons b bs =>
      cases z with
      | nil => simp [rstrCmp] at hyz
      | cons c cs => simp [rstrCmp]
  | cons a as ih =>
    intro y z hxy hyz
    cases y with
    | nil => simp [rstrCmp] at hxy
    | cons b bs =>
      cases z with
      | nil => simp [rstrCmp] at hyz
      | cons c cs =>
        rw [rstrCmp_cons_cons] at hxy hyz ⊢
        rcases hab : compare a b with h1 | h1 | h1 <;> rw [hab] at hxy
        · rcases hbc : compare b c with h2 | h2 | h2 <;> rw [hbc] at hyz
          · have hlt : a < c :=
              lt_trans (Nat.compare_eq_lt.1 hab) (Nat.compare_eq_lt.1 hbc)
            rw [Nat.compare_eq_lt.2 hlt]
          · have hbe := Nat.compare_eq_eq.1 hbc
            subst hbe
            rw [hab]
          · exact Ordering.noConfusion hyz
        · have hbe := Nat.compare_eq_eq.1 hab
          subst hbe
          rcases hbc : compare a c with h2 | h2 | h2
          · rfl
          · rw [hbc] at hyz
            exact ih hxy hyz
          · rw [hbc] at hyz
            exact Ordering.noConfusion hyz
        · exact Ordering.noConfusion hxy

/-- Swapping the arguments of the build comparator swaps the verdict. -/
theorem buildSortCmp_swap (a b : ElfLibrary) :
    (buildSortCmp a b).swap = buildSortCmp b a := by
  simp only [buildSortCmp]
  rw [← rstrCmp_swap (libName b) (libName a)]
  rcases h : rstrCmp (libName b) (libName a) with h1 | h1 | h1
  · rfl
  · exact natCompare_swap _ _
  · rfl

/-- Unfolding of the non-strict build order: `a` may precede `b` iff
`a`'s filename is lexicographically above `b`'s, or the filenames agree
and `a`'s bitmask is at least `b`'s. -/
theorem buildSortLe_iff (a b : ElfLibrary) :
    buildSortCmp a b ≠ .gt ↔
      (rstrCmp (libName b) (libName a) = .lt ∨
        (libName b = libName a ∧ libHw b ≤ libHw a)) := by
  simp only [buildSortCmp]
  rcases h : rstrCmp (libName b) (libName a) with h1 | h1 | h1
  · constructor
    · intro _; exact Or.inl rfl
    · intro _ hg; exact Ordering.noConfusion hg
  · have hbe := rstrCmp_eq_iff.1 h
    constructor
    · intro hng
      refine Or.inr ⟨hbe, ?_⟩
      rcases hc : compare (libHw b) (libHw a) with h2 | h2 | h2
      · exact le_of_lt (Nat.compare_eq_lt.1 hc)
      · exact le_of_eq (Nat.compare_eq_eq.1 hc)
      · exact absurd hc hng
    · rintro (hlt | ⟨-, hle⟩)
      · exact Ordering.noConfusion hlt
      · intro hg
        replace hg : compare (libHw b) (libHw a) = Ordering.gt := hg
        have := Nat.compare_eq_gt.1 hg
        omega
  · constructor
    · intro hng; exact absurd rfl hng
    · rintro (hlt | ⟨hbe, -⟩)
      · exact Ordering.noConfusion hlt
      · rw [hbe, rstrCmp_eq_iff.2 rfl] at h
        exact Ordering.noConfusion h

/-- The build order is total. -/
theorem buildSortRel_total (a b : ElfLibrary) :
    buildSortRel a b ∨ buildSortRel b a := by
  unfold buildSortRel
  rcases h : buildSortCmp a b with h1 | h1 | h1
  · exact Or.inl (by simp [h])
  · exact Or.inl (by simp [h])
  · have hs := buildSortCmp_swap a b
    rw [h] at hs
    have hba : buildSortCmp b a = .lt := by rw [← hs]; rfl
    exact Or.inr (by simp [hba])

/-- The build order is transitive. -/
theorem buildSortRel_trans (a b c : ElfLibrary) :
    buildSortRel a b → buildSortRel b c → buildSortRel a c := by
  unfold buildSortRel
  intro hab hbc
  rw [buildSortLe_iff] at hab hbc ⊢
  rcases hab with h1 | ⟨h1, h1h⟩
  · rcases hbc with h2 | ⟨h2, h2h⟩
    · exact Or.inl (rstrCmp_lt_trans h2 h1)
    · exact Or.inl (h2 ▸ h1)
  · rcases hbc with h2 | ⟨h2, h2h⟩
    · exact Or.inl (h1 ▸ h2)
    · exact Or.inr ⟨h2.trans h1, le_trans h2h h1h⟩

/-! ### Byte-layout lemmas for the codec round trip -/

theorem le32_length (n : Nat) : (le32 n).length = 4 := rfl

theorem le64_length (n : Nat) : (le64 n).length = 8 := rfl

theorem entryBytes_length (e : CacheEntry) : (entryBytes e).length = 24 := by
  simp [entryBytes, le32, le64]

theorem cacheMagic_length : cacheMagic.length = 20 := rfl

theorem generatorBytes_length : generatorBytes.length = 17 := rfl

theorem headerBytes_length (n ls e : Nat) : (headerBytes n ls e).length = 48 := by
  simp [headerBytes, le32, cacheMagic, bytesOf]

theorem extBytes_length (e : Nat) : (extBytes e).length = 42 := by
  simp [extBytes, le32, generatorBytes, bytesOf]

/-- Indexing past a leading segment lands in the tail. -/
theorem getElem?_off (a l : List Nat) (j : Nat) :
    (a ++ l)[a.length + j]? = l[j]? := by
  rw [List.getElem?_append_right (by omega)]
  congr 1
  omega

/-- Reading a `u32` straight after a leading segment recovers the value
written by `le32`, reduced modulo `2^32`. -/
theorem readU32_layout (a r : List Nat) (m : Nat) :
    readU32? (a ++ (le32 m ++ r)) a.length = some (m % 2 ^ 32) := by
  have e0 : (a ++ (le32 m ++ r))[a.length]? = some (m % 256) := by
    simpa [le32] using getElem?_off a (le32 m ++ r) 0
  have e1 : (a ++ (le32 m ++ r))[a.length + 1]? = some (m / 256 % 256) := by
    simpa [le32] using getElem?_off a (le32 m ++ r) 1
  have e2 : (a ++ (le32 m ++ r))[a.length + 2]? = some (m / 65536 % 256) := by
    simpa [le32] using getElem?_off a (le32 m ++ r) 2
  have e3 : (a ++ (le32 m ++ r))[a.length + 3]? = some (m / 16777216 % 256) := by
    simpa [le32] using getElem?_off a (le32 m ++ r) 3
  simp only [readU32?, e0, e1, e2, e3, Option.bind_eq_bind, Option.some_bind,
    Option.pure_def, Option.some.injEq]
  have h32 : (2 : Nat) ^ 32 = 4294967296 := by norm_num
  rw [h32]
  omega

/-- Reading a `u64` straight after a leading segment recovers the value
written by `le64`, reduced modulo `2^64`. -/
theorem readU64_layout (a r : List Nat) (m : Nat) :
    readU64? (a ++ (le64 m ++ r)) a.length = some (m % 2 ^ 64) := by
  have e0 : (a ++ (le64 m ++ r))[a.length]? = some (m % 256) := by
    simpa [le64] using getElem?_off a (le64 m ++ r) 0
  have e1 : (a ++ (le64 m ++ r))[a.length + 1]? = some (m / 256 % 256) := by
    simpa [le64] using getElem?_off a (le64 m ++ r) 1
  have e2 : (a ++ (le64 m ++ r))[a.length + 2]? = some (m / 2 ^ 16 % 256) := by
    simpa [le64] using getElem?_off a (le64 m ++ r) 2
  have e3 : (a ++ (le64 m ++ r))[a.length + 3]? = some (m / 2 ^ 24 % 256) := by
    simpa [le64] using getElem?_off a (le64 m ++ r) 3
  have e4 : (a ++ (le64 m ++ r))[a.length + 4]? = some (m / 2 ^ 32 % 256) := by
    simpa [le64] using getElem?_off a (le64 m ++ r) 4
  have e5 : (a ++ (le64 m ++ r))[a.length + 5]? = some (m / 2 ^ 40 % 256) := by
    simpa [le64] using getElem?_off a (le64 m ++ r) 5
  have e6 : (a ++ (le64 m ++ r))[a.length + 6]? = some (m / 2 ^ 48 % 256) := by
    simpa [le64] using getElem?_off a (le64 m ++ r) 6
  have e7 : (a ++ (le64 m ++ r))[a.length + 7]? = some (m / 2 ^ 56 % 256) := by
    simpa [le64] using getElem?_off a (le64 m ++ r) 7
  simp only [readU64?, e0, e1, e2, e3, e4, e5, e6, e7, Option.bind_eq_bind,
    Option.some_bind, Option.pure_def, Option.some.injEq]
  have p16 : (2 : Nat) ^ 16 = 65536 := by norm_num
  have p24 : (2 : Nat) ^ 24 = 16777216 := by norm_num
  have p32 : (2 : Nat) ^ 32 = 4294967296 := by norm_num
  have p40 : (2 : Nat) ^ 40 = 1099511627776 := by norm_num
  have p48 : (2 : Nat) ^ 48 = 281474976710656 := by norm_num
  have p56 : (2 : Nat) ^ 56 = 72057594037927936 := by norm_num
  have p64 : (2 : Nat) ^ 64 = 18446744073709551616 := by norm_num
  rw [p16, p24, p32, p40, p48, p56, p64]
  omega

/-- The architecture flag words are small (they fit a `u32`). -/
theorem archToFlags_lt (arch : ElfArch) (b h : Bool) :
    archToFlags arch b h < 2 ^ 32 := by
  rcases arch <;> rcases b <;> rcases h <;> decide

/-- Every field of an entry built by `build_cache`'s second pass is
already reduced to its wire width. -/
theorem entryFor_reduced (canon : RPath → Option RPath) (pre : Option RPath)
    (st : StringTable) (base32 : Nat) (lib : ElfLibrary) :
    (entryFor canon pre st base32 lib).flags < 2 ^ 32 ∧
    (entryFor canon pre st base32 lib).keyOffset < 2 ^ 32 ∧
    (entryFor canon pre st base32 lib).valueOffset < 2 ^ 32 ∧
    (entryFor canon pre st base32 lib).osversion < 2 ^ 32 ∧
    (entryFor canon pre st base32 lib).hwcap < 2 ^ 64 := by
  refine ⟨archToFlags_lt _ _ _, ?_, ?_, ?_, ?_⟩ <;>
    exact Nat.mod_lt _ (by norm_num)

/-- Reading one 24-byte entry straight after a leading segment recovers
the entry, provided its fields are reduced to their wire widths. -/
theorem readEntry_layout (a r : List Nat) (e : CacheEntry)
    (hf : e.flags < 2 ^ 32) (hk : e.keyOffset < 2 ^ 32)
    (hv : e.valueOffset < 2 ^ 32) (ho : e.osversion < 2 ^ 32)
    (hh : e.hwcap < 2 ^ 64) :
    readEntry? (a ++ (entryBytes e ++ r)) a.length = some e := by
  obtain ⟨f, k, v, o, h⟩ := e
  simp only at hf hk hv ho hh
  have hrf : readU32? (a ++ (entryBytes ⟨f, k, v, o, h⟩ ++ r)) a.length = some f := by
    have he : a ++ (entryBytes ⟨f, k, v, o, h⟩ ++ r) =
        a ++ (le32 f ++ (le32 k ++ (le32 v ++ (le32 o ++ (le64 h ++ r))))) := by
      simp only [entryBytes, List.append_assoc]
    rw [he, readU32_layout, Nat.mod_eq_of_lt hf]
  have hrk : readU32? (a ++ (entryBytes ⟨f, k, v, o, h⟩ ++ r)) (a.length + 4) = some k := by
    have he : a ++ (entryBytes ⟨f, k, v, o, h⟩ ++ r) =
        (a ++ le32 f) ++ (le32 k ++ (le32 v ++ (le32 o ++ (le64 h ++ r)))) := by
      simp only [entryBytes, List.append_assoc]
    have hl : a.length + 4 = (a ++ le32 f).length := by
      simp [le32_length]
    rw [he, hl, readU32_layout, Nat.mod_eq_of_lt hk]
  have hrv : readU32? (a ++ (entryBytes ⟨f, k, v, o, h⟩ ++ r)) (a.length + 8) = some v := by
    have he : a ++ (entryBytes ⟨f, k, v, o, h⟩ ++ r) =
        (a ++ le32 f ++ le32 k) ++ (le32 v ++ (le32 o ++ (le64 h ++ r))) := by
      simp only [entryBytes, List.append_assoc]
    have hl : a.length + 8 = (a ++ le32 f ++ le32 k).length := by
      simp [le32_length]
    rw [he, hl, readU32_layout, Nat.mod_eq_of_lt hv]
  have hro : readU32? (a ++ (entryBytes ⟨f, k, v, o, h⟩ ++ r)) (a.length + 12) = some o := by
    have he : a ++ (entryBytes ⟨f, k, v, o, h⟩ ++ r) =
        (a ++ le32 f ++ le32 k ++ le32 v) ++ (le32 o ++ (le64 h ++ r)) := by
      simp only [entryBytes, List.append_assoc]
    have hl : a.length + 12 = (a ++ le32 f ++ le32 k ++ le32 v).length := by
      simp [le32_length]
    rw [he, hl, readU32_layout, Nat.mod_eq_of_lt ho]
  have hrh : readU64? (a ++ (entryBytes ⟨f, k, v, o, h⟩ ++ r)) (a.length + 16) = some h := by
    have he : a ++ (entryBytes ⟨f, k, v, o, h⟩ ++ r) =
        (a ++ le32 f ++ le32 k ++ le32 v ++ le32 o) ++ (le64 h ++ r) := by
      simp only [entryBytes, List.append_assoc]
    have hl : a.length + 16 = (a ++ le32 f ++ le32 k ++ le32 v ++ le32 o).length := by
      simp [le32_length]
    rw [he, hl, readU64_layout, Nat.mod_eq_of_lt hh]
  simp only [readEntry?, hrf, hrk, hrv, hro, hrh, Option.bind_eq_bind,
    Option.some_bind, Option.pure_def]

/-- Reading `l.length` consecutive entries after a prefix of the right
length recovers `l`, provided every entry is reduced. -/
theorem readEntriesFrom_layout (l : List CacheEntry) :
    ∀ (a r : List Nat) (i : Nat), a.length = 48 + 24 * i →
    (∀ e ∈ l, e.flags < 2 ^ 32 ∧ e.keyOffset < 2 ^ 32 ∧ e.valueOffset < 2 ^ 32 ∧
      e.osversion < 2 ^ 32 ∧ e.hwcap < 2 ^ 64) →
    readEntriesFrom? (a ++ ((l.map entryBytes).flatten ++ r)) i l.length = some l := by
  induction l with
  | nil => intro a r i _ _; simp [readEntriesFrom?]
  | cons e l ih =>
    intro a r i hi hred
    obtain ⟨hf, hk, hv, ho, hh⟩ := hred e (by simp)
    have hassoc : a ++ (((e :: l).map entryBytes).flatten ++ r) =
        a ++ (entryBytes e ++ ((l.map entryBytes).flatten ++ r)) := by
      simp [List.append_assoc]
    have hstep : readEntry? (a ++ (((e :: l).map entryBytes).flatten ++ r)) (48 + 24 * i) =
        some e := by
      rw [hassoc, ← hi]
      exact readEntry_layout a _ e hf hk hv ho hh
    have hrest : readEntriesFrom? (a ++ (((e :: l).map entryBytes).flatten ++ r))
        (i + 1) l.length = some l := by
      have hassoc2 : a ++ (((e :: l).map entryBytes).flatten ++ r) =
          (a ++ entryBytes e) ++ ((l.map entryBytes).flatten ++ r) := by
        simp [List.append_assoc]
      rw [hassoc2]
      refine ih (a ++ entryBytes e) r (i + 1) ?_ ?_
      · simp [entryBytes_length, hi]
        omega
      · intro e' he'
        exact hred e' (by simp [he'])
    show readEntriesFrom? _ i (l.length + 1) = _
    simp only [readEntriesFrom?, hstep, hrest, Option.bind_eq_bind, Option.some_bind,
      Option.pure_def]

/-- Total byte length of a flattened entry region. -/
theorem flattenEntryBytes_length (l : List CacheEntry) :
    ((l.map entryBytes).flatten).length = 24 * l.length := by
  induction l with
  | nil => simp
  | cons e l ih =>
    simp [entryBytes_length, ih]
    omega

/-- `parse_cache` on any byte stream with the exact layout `build_cache`
produces — header, reduced entries, string table, alignment padding and
extension section — recovers the header fields, the entry list, the
split string table and the generator. -/
theorem parseCache_layout (el : List CacheEntry) (tb pad : List Nat)
    (hred : ∀ e ∈ el, e.flags < 2 ^ 32 ∧ e.keyOffset < 2 ^ 32 ∧
      e.valueOffset < 2 ^ 32 ∧ e.osversion < 2 ^ 32 ∧ e.hwcap < 2 ^ 64)
    (hlen : 48 + 24 * el.length + tb.length + pad.length + 42 < 2 ^ 32) :
    parseCache (headerBytes el.length tb.length
        (48 + 24 * el.length + tb.length + pad.length) ++
      ((el.map entryBytes).flatten ++ (tb ++ (pad ++
        extBytes (48 + 24 * el.length + tb.length + pad.length))))) =
    some { header := { magic := cacheMagic, nlibs := el.length,
                       lenStrings := tb.length },
           entries := el, stringTable := splitStrings tb,
           generator := some generatorBytes } := by
  set n := el.length with hn
  set L := tb.length with hL
  set xo := 48 + 24 * n + L + pad.length with hxo
  set D := headerBytes n L xo ++
    ((el.map entryBytes).flatten ++ (tb ++ (pad ++ extBytes xo))) with hD
  have hDlen : D.length = xo + 42 := by
    simp only [hD, List.length_append, headerBytes_length, flattenEntryBytes_length,
      extBytes_length]
    omega
  have hn32 : n < 2 ^ 32 := by omega
  have hL32 : L < 2 ^ 32 := by omega
  have hxo32 : xo < 2 ^ 32 := by omega
  -- the fully right-associated header decomposition
  have hDassoc : D = cacheMagic ++ (le32 (n % 2 ^ 32) ++ (le32 (L % 2 ^ 32) ++
      ([2] ++ ([0, 0, 0] ++ (le32 (xo % 2 ^ 32) ++ (List.replicate 12 0 ++
      ((el.map entryBytes).flatten ++ (tb ++ (pad ++ extBytes xo))))))))) := by
    simp only [hD, headerBytes, List.append_assoc]
  -- magic
  have hmagic : D.take 20 = cacheMagic := by
    rw [hDassoc, show (20 : Nat) = cacheMagic.length from rfl, List.take_left]
  have h20 : 20 ≤ D.length := by omega
  -- nlibs
  have hnl : readU32? D 20 = some n := by
    rw [hDassoc, show (20 : Nat) = cacheMagic.length from rfl, readU32_layout]
    congr 1
    omega
  -- len_strings
  have hls : readU32? D 24 = some L := by
    have h24 : (24 : Nat) = (cacheMagic ++ le32 (n % 2 ^ 32)).length := by
      simp [cacheMagic_length, le32_length]
    have hassoc : D = (cacheMagic ++ le32 (n % 2 ^ 32)) ++ (le32 (L % 2 ^ 32) ++
        ([2] ++ ([0, 0, 0] ++ (le32 (xo % 2 ^ 32) ++ (List.replicate 12 0 ++
        ((el.map entryBytes).flatten ++ (tb ++ (pad ++ extBytes xo)))))))) := by
      simp only [hD, headerBytes, List.append_assoc]
    rw [hassoc, h24, readU32_layout]
    congr 1
    omega
  -- extension offset field
  have hxor : readU32? D 32 = some xo := by
    have hassoc : D = (cacheMagic ++ le32 (n % 2 ^ 32) ++ le32 (L % 2 ^ 32) ++
        [2] ++ [0, 0, 0]) ++ (le32 (xo % 2 ^ 32) ++ (List.replicate 12 0 ++
        ((el.map entryBytes).flatten ++ (tb ++ (pad ++ extBytes xo))))) := by
      simp only [hD, headerBytes, List.append_assoc]
    have hl32 : (cacheMagic ++ le32 (n % 2 ^ 32) ++ le32 (L % 2 ^ 32) ++
        [2] ++ [0, 0, 0]).length = 32 := by
      simp [cacheMagic_length, le32_length]
    have hx := readU32_layout (cacheMagic ++ le32 (n % 2 ^ 32) ++ le32 (L % 2 ^ 32) ++
        [2] ++ [0, 0, 0]) (List.replicate 12 0 ++
        ((el.map entryBytes).flatten ++ (tb ++ (pad ++ extBytes xo)))) (xo % 2 ^ 32)
    rw [hl32, ← hassoc] at hx
    rw [hx]
    congr 1
    omega
  -- entries
  have hentries : readEntriesFrom? D 0 n = some el := by
    have hassoc : D = headerBytes n L xo ++
        ((el.map entryBytes).flatten ++ (tb ++ (pad ++ extBytes xo))) := hD
    rw [hassoc, hn]
    exact readEntriesFrom_layout el (headerBytes n L xo) _ 0
      (by simp [headerBytes_length]) hred
  -- string table slice
  have hstart : 48 + 24 * n ≤ D.length := by omega
  have hslice : (D.drop (48 + 24 * n)).take L = tb := by
    have hassoc : D = (headerBytes n L xo ++ (el.map entryBytes).flatten) ++
        (tb ++ (pad ++ extBytes xo)) := by
      simp only [hD, List.append_assoc]
    have hlen48 : (headerBytes n L xo ++ (el.map entryBytes).flatten).length =
        48 + 24 * n := by
      rw [List.length_append, headerBytes_length, flattenEntryBytes_length]
    rw [hassoc, ← hlen48, List.drop_left, hL]
    exact List.take_left tb _
  -- extension section reads
  have hPlen : (headerBytes n L xo ++
      ((el.map entryBytes).flatten ++ (tb ++ pad))).length = xo := by
    simp only [List.length_append, headerBytes_length, flattenEntryBytes_length]
    omega
  have hgroupE : D = (headerBytes n L xo ++
      ((el.map entryBytes).flatten ++ (tb ++ pad))) ++
      (le32 0xEAA42174 ++ (le32 1 ++ (le32 0 ++ (le32 0 ++
      (le32 ((xo % 2 ^ 32 + 24) % 2 ^ 32) ++
      (le32 (generatorBytes.length % 2 ^ 32) ++ (generatorBytes ++ [0]))))))) := by
    simp only [hD, extBytes, List.append_assoc]
  have hrm : readU32? D xo = some 0xEAA42174 := by
    have hx := readU32_layout (headerBytes n L xo ++
      ((el.map entryBytes).flatten ++ (tb ++ pad)))
      (le32 1 ++ (le32 0 ++ (le32 0 ++
      (le32 ((xo % 2 ^ 32 + 24) % 2 ^ 32) ++
      (le32 (generatorBytes.length % 2 ^ 32) ++ (generatorBytes ++ [0]))))))
      0xEAA42174
    rw [hPlen, ← hgroupE] at hx
    rw [hx]
    congr 1
  have hgroupE1 : D = ((headerBytes n L xo ++
      ((el.map entryBytes).flatten ++ (tb ++ pad))) ++ le32 0xEAA42174) ++
      (le32 1 ++ (le32 0 ++ (le32 0 ++
      (le32 ((xo % 2 ^ 32 + 24) % 2 ^ 32) ++
      (le32 (generatorBytes.length % 2 ^ 32) ++ (generatorBytes ++ [0])))))) := by
    simp only [hD, extBytes, List.append_assoc]
  have hrc : readU32? D (xo + 4) = some 1 := by
    have hp : ((headerBytes n L xo ++
        ((el.map entryBytes).flatten ++ (tb ++ pad))) ++ le32 0xEAA42174).length =
        xo + 4 := by
      rw [List.length_append, hPlen, le32_length]
    have hx := readU32_layout ((headerBytes n L xo ++
      ((el.map entryBytes).flatten ++ (tb ++ pad))) ++ le32 0xEAA42174)
      (le32 0 ++ (le32 0 ++
      (le32 ((xo % 2 ^ 32 + 24) % 2 ^ 32) ++
      (le32 (generatorBytes.length % 2 ^ 32) ++ (generatorBytes ++ [0]))))) 1
    rw [hp, ← hgroupE1] at hx
    rw [hx]
    congr 1
  have hgroupE2 : D = (((headerBytes n L xo ++
      ((el.map entryBytes).flatten ++ (tb ++ pad))) ++ le32 0xEAA42174) ++ le32 1) ++
      (le32 0 ++ (le32 0 ++
      (le32 ((xo % 2 ^ 32 + 24) % 2 ^ 32) ++
      (le32 (generatorBytes.length % 2 ^ 32) ++ (generatorBytes ++ [0]))))) := by
    simp only [hD, extBytes, List.append_assoc]
  have hrtag : readU32? D (xo + 8) = some 0 := by
    have hp : (((headerBytes n L xo ++
        ((el.map entryBytes).flatten ++ (tb ++ pad))) ++ le32 0xEAA42174) ++
        le32 1).length = xo + 8 := by
      rw [List.length_append, List.length_append, hPlen, le32_length, le32_length]
    have hx := readU32_layout (((headerBytes n L xo ++
      ((el.map entryBytes).flatten ++ (tb ++ pad))) ++ le32 0xEAA42174) ++ le32 1)
      (le32 0 ++
      (le32 ((xo % 2 ^ 32 + 24) % 2 ^ 32) ++
      (le32 (generatorBytes.length % 2 ^ 32) ++ (generatorBytes ++ [0])))) 0
    rw [hp, ← hgroupE2] at hx
    rw [hx]
    congr 1
  have hgroupE4 : D = (((((headerBytes n L xo ++
      ((el.map entryBytes).flatten ++ (tb ++ pad))) ++ le32 0xEAA42174) ++ le32 1) ++
      le32 0) ++ le32 0) ++
      (le32 ((xo % 2 ^ 32 + 24) % 2 ^ 32) ++
      (le32 (generatorBytes.length % 2 ^ 32) ++ (generatorBytes ++ [0]))) := by
    simp only [hD, extBytes, List.append_assoc]
  have hrdo : readU32? D (xo + 16) = some (xo + 24) := by
    have hp : (((((headerBytes n L xo ++
        ((el.map entryBytes).flatten ++ (tb ++ pad))) ++ le32 0xEAA42174) ++ le32 1) ++
        le32 0) ++ le32 0).length = xo + 16 := by
      simp only [List.length_append, hPlen, le32_length]
    have hx := readU32_layout ((((headerBytes n L xo ++
      ((el.map entryBytes).flatten ++ (tb ++ pad))) ++ le32 0xEAA42174) ++ le32 1) ++
      le32 0 ++ le32 0)
      (le32 (generatorBytes.length % 2 ^ 32) ++ (generatorBytes ++ [0]))
      ((xo % 2 ^ 32 + 24) % 2 ^ 32)
    rw [hp, ← hgroupE4] at hx
    rw [hx]
    congr 1
    omega
  have hgroupE5 : D = ((((((headerBytes n L xo ++
      ((el.map entryBytes).flatten ++ (tb ++ pad))) ++ le32 0xEAA42174) ++ le32 1) ++
      le32 0) ++ le32 0) ++ le32 ((xo % 2 ^ 32 + 24) % 2 ^ 32)) ++
      (le32 (generatorBytes.length % 2 ^ 32) ++ (generatorBytes ++ [0])) := by
    simp only [hD, extBytes, List.append_assoc]
  have hrsz : readU32? D (xo + 20) = some 17 := by
    have hp : ((((((headerBytes n L xo ++
        ((el.map entryBytes).flatten ++ (tb ++ pad))) ++ le32 0xEAA42174) ++ le32 1) ++
        le32 0) ++ le32 0) ++ le32 ((xo % 2 ^ 32 + 24) % 2 ^ 32)).length = xo + 20 := by
      simp only [List.length_append, hPlen, le32_length]
    have hx := readU32_layout (((((headerBytes n L xo ++
      ((el.map entryBytes).flatten ++ (tb ++ pad))) ++ le32 0xEAA42174) ++ le32 1) ++
      le32 0) ++ le32 0 ++ le32 ((xo % 2 ^ 32 + 24) % 2 ^ 32))
      (generatorBytes ++ [0]) (generatorBytes.length % 2 ^ 32)
    rw [hp, ← hgroupE5] at hx
    rw [hx]
    rw [generatorBytes_length]
    congr 1
  have hgroupE6 : D = (((((((headerBytes n L xo ++
      ((el.map entryBytes).flatten ++ (tb ++ pad))) ++ le32 0xEAA42174) ++ le32 1) ++
      le32 0) ++ le32 0) ++ le32 ((xo % 2 ^ 32 + 24) % 2 ^ 32)) ++
      le32 (generatorBytes.length % 2 ^ 32)) ++ (generatorBytes ++ [0]) := by
    simp only [hD, extBytes, List.append_assoc]
  have hgen : (D.drop (xo + 24)).take 17 = generatorBytes := by
    have hp : (((((((headerBytes n L xo ++
        ((el.map entryBytes).flatten ++ (tb ++ pad))) ++ le32 0xEAA42174) ++ le32 1) ++
        le32 0) ++ le32 0) ++ le32 ((xo % 2 ^ 32 + 24) % 2 ^ 32)) ++
        le32 (generatorBytes.length % 2 ^ 32)).length = xo + 24 := by
      simp only [List.length_append, hPlen, le32_length]
    have hdx := List.drop_left ((((((headerBytes n L xo ++
      ((el.map entryBytes).flatten ++ (tb ++ pad))) ++ le32 0xEAA42174) ++ le32 1) ++
      le32 0) ++ le32 0) ++ le32 ((xo % 2 ^ 32 + 24) % 2 ^ 32) ++
      le32 (generatorBytes.length % 2 ^ 32)) (generatorBytes ++ [0])
    rw [hp, ← hgroupE6] at hdx
    rw [hdx, show (17 : Nat) = generatorBytes.length from rfl, List.take_left]
  have hext : parseExtension D xo = some generatorBytes := by
    unfold parseExtension
    rw [if_pos ⟨by omega, by omega⟩, hrm, hrc]
    simp only [Option.getD_some, if_true]
    unfold extGenerator
    have hso : xo + 8 + 16 ≤ D.length := by omega
    have h88 : xo + 8 + 8 = xo + 16 := by omega
    have h812 : xo + 8 + 12 = xo + 20 := by omega
    have hr1 : List.range 1 = [0] := rfl
    simp only [hr1, List.foldl_cons, List.foldl_nil, Nat.zero_mul,
      Nat.add_zero, if_pos hso, h88, h812, hrtag, hrdo, hrsz, Option.getD_some]
    rw [if_pos ⟨trivial, by omega⟩, hgen]
  -- assemble the parse
  unfold parseCache
  rw [if_pos h20]
  simp only [hmagic, hnl, hls, hxor, hentries, Option.bind_eq_bind, Option.some_bind]
  rw [if_pos hstart]
  simp only [Option.some_bind, Nat.min_eq_left (show 48 + 24 * n + L ≤ D.length by omega),
    Nat.add_sub_cancel_left, hslice, hext, Option.pure_def]

/-- `parse_cache ∘ build_cache`: on any descriptor list whose serialized
size fits a `u32`, parsing the built bytes succeeds (no panic) and
returns the header fields, one entry per sorted descriptor, the split
string table and the generator string. -/
theorem parseCache_buildCache (canon : RPath → Option RPath) (pre : Option RPath)
    (libs : List ElfLibrary)
    (hs : 48 + 24 * (sortLibraries libs).length +
      (buildStringTable canon pre (sortLibraries libs)).table.length + 45 < 2 ^ 32) :
    parseCache (buildCache canon pre libs) =
      some { header := { magic := cacheMagic,
                         nlibs := (sortLibraries libs).length,
                         lenStrings :=
                           (buildStringTable canon pre (sortLibraries libs)).table.length },
             entries := (sortLibraries libs).map
               (entryFor canon pre (buildStringTable canon pre (sortLibraries libs))
                 ((48 + 24 * (sortLibraries libs).length) % 2 ^ 32)),
             stringTable :=
               splitStrings (buildStringTable canon pre (sortLibraries libs)).table,
             generator := some generatorBytes } := by
  set sorted := sortLibraries libs with hsorted
  set st := buildStringTable canon pre sorted with hst
  set base := 48 + 24 * sorted.length with hbase
  set padLen := (4 - (base + st.table.length) % 4) % 4 with hpadLen
  set el := sorted.map (entryFor canon pre st (base % 2 ^ 32)) with hel
  have hellen : el.length = sorted.length := by simp [hel]
  have hpadlen3 : padLen < 4 := by omega
  have hred : ∀ e ∈ el, e.flags < 2 ^ 32 ∧ e.keyOffset < 2 ^ 32 ∧
      e.valueOffset < 2 ^ 32 ∧ e.osversion < 2 ^ 32 ∧ e.hwcap < 2 ^ 64 := by
    intro e he
    rw [hel] at he
    obtain ⟨lib, -, rfl⟩ := List.mem_map.1 he
    exact entryFor_reduced canon pre st (base % 2 ^ 32) lib
  have hlay := parseCache_layout el st.table (List.replicate padLen 0) hred
    (by
      rw [hellen]
      simp only [List.length_replicate]
      omega)
  have hb : buildCache canon pre libs =
      headerBytes el.length st.table.length
        (48 + 24 * el.length + st.table.length + (List.replicate padLen 0).length) ++
      ((el.map entryBytes).flatten ++ (st.table ++ (List.replicate padLen 0 ++
        extBytes (48 + 24 * el.length + st.table.length +
          (List.replicate padLen 0).length)))) := by
    simp only [buildCache, ← hsorted, ← hst, hel, List.map_map, List.length_map,
      List.length_replicate, Function.comp_def]
    rw [← hbase, ← hpadLen]
    simp only [List.append_assoc]
  rw [hb, hlay, hellen]

/-! ### The interning invariant of the string table -/

/-- Every recorded offset points at its string, stored NUL-terminated
inside the table; the stored offset is the length of everything before
it (reduced as the `u32` the source stores). -/
def tableInv (st : StringTable) : Prop :=
  ∀ p ∈ st.offsets, ∃ a b, st.table = a ++ (p.1 ++ (0 :: b)) ∧ p.2 = a.length % 2 ^ 32

theorem tableInv_nil : tableInv ⟨[], []⟩ := by
  intro p hp
  simp at hp

theorem tableInv_addString (st : StringTable) (s : RStr) (h : tableInv st) :
    tableInv (addString st s) := by
  unfold addString
  by_cases hc : (st.offsets.lookup s).isSome
  · rw [if_pos hc]; exact h
  · rw [if_neg hc]
    intro p hp
    simp only [List.mem_append, List.mem_singleton] at hp
    rcases hp with hp | hp
    · obtain ⟨a, b, htab, hoff⟩ := h p hp
      refine ⟨a, b ++ (s ++ [0]), ?_, hoff⟩
      show st.table ++ s ++ [0] = _
      rw [htab]
      simp [List.append_assoc]
    · subst hp
      refine ⟨st.table, [], ?_, rfl⟩
      show st.table ++ s ++ [0] = st.table ++ (s ++ (0 :: []))
      simp [List.append_assoc]

/-- A successful association-list lookup produces a member. -/
theorem lookup_mem : ∀ {l : List (RStr × Nat)} {k : RStr} {v : Nat},
    l.lookup k = some v → (k, v) ∈ l := by
  intro l
  induction l with
  | nil => intro k v h; simp [List.lookup] at h
  | cons p l ih =>
    intro k v h
    obtain ⟨a, b⟩ := p
    rw [List.lookup_cons] at h
    rcases hk : (k == a) with _ | _ <;> rw [hk] at h
    · exact List.mem_cons_of_mem _ (ih h)
    · obtain rfl := Option.some.inj h
      have : k = a := by simpa using hk
      subst this
      exact List.mem_cons_self _ _

/-- After interning `s`, a lookup for `s` succeeds. -/
theorem lookup_addString_self (st : StringTable) (s : RStr) :
    ((addString st s).offsets.lookup s).isSome := by
  unfold addString
  by_cases hc : (st.offsets.lookup s).isSome
  · rw [if_pos hc]; exact hc
  · rw [if_neg hc]
    have hnone : st.offsets.lookup s = none := Option.not_isSome_iff_eq_none.1 hc
    simp [List.lookup_append, hnone, List.lookup_cons]

/-- Interning never removes keys. -/
theorem lookup_addString_mono (st : StringTable) (s k : RStr)
    (h : (st.offsets.lookup k).isSome) :
    ((addString st s).offsets.lookup k).isSome := by
  unfold addString
  by_cases hc : (st.offsets.lookup s).isSome
  · rw [if_pos hc]; exact h
  · rw [if_neg hc]
    obtain ⟨v, hv⟩ := Option.isSome_iff_exists.1 h
    simp [List.lookup_append, hv]

/-- The interning invariant holds through the build's first pass. -/
theorem foldl_addString_inv (canon : RPath → Option RPath) (pre : Option RPath)
    (l : List ElfLibrary) :
    ∀ st : StringTable, tableInv st →
    tableInv (l.foldl (fun st lib =>
      addString (addString st (fileNameOrPath lib.path))
        (pathToAdd canon pre lib.path)) st) := by
  induction l with
  | nil => intro st h; exact h
  | cons x l ih =>
    intro st h
    exact ih _ (tableInv_addString _ _ (tableInv_addString _ _ h))

/-- The interning invariant of the completed string table. -/
theorem buildStringTable_inv (canon : RPath → Option RPath) (pre : Option RPath)
    (sorted : List ElfLibrary) : tableInv (buildStringTable canon pre sorted) :=
  foldl_addString_inv canon pre sorted ⟨[], []⟩ tableInv_nil

/-- Keys survive the rest of the build's first pass. -/
theorem foldl_addString_mono (canon : RPath → Option RPath) (pre : Option RPath)
    (l : List ElfLibrary) :
    ∀ (st : StringTable) (k : RStr), (st.offsets.lookup k).isSome →
    ((l.foldl (fun st lib =>
      addString (addString st (fileNameOrPath lib.path))
        (pathToAdd canon pre lib.path)) st).offsets.lookup k).isSome := by
  induction l with
  | nil => intro st k h; exact h
  | cons x l ih =>
    intro st k h
    exact ih _ _ (lookup_addString_mono _ _ _ (lookup_addString_mono _ _ _ h))

/-- Both strings of every processed descriptor are interned. -/
theorem buildStringTable_mem (canon : RPath → Option RPath) (pre : Option RPath)
    (l : List ElfLibrary) (lib : ElfLibrary) (hmem : lib ∈ l) :
    ((buildStringTable canon pre l).offsets.lookup (fileNameOrPath lib.path)).isSome ∧
    ((buildStringTable canon pre l).offsets.lookup (pathToAdd canon pre lib.path)).isSome := by
  unfold buildStringTable
  suffices hgen : ∀ (st : StringTable), lib ∈ l →
      ((l.foldl (fun st lib =>
        addString (addString st (fileNameOrPath lib.path))
          (pathToAdd canon pre lib.path)) st).offsets.lookup
          (fileNameOrPath lib.path)).isSome ∧
      ((l.foldl (fun st lib =>
        addString (addString st (fileNameOrPath lib.path))
          (pathToAdd canon pre lib.path)) st).offsets.lookup
          (pathToAdd canon pre lib.path)).isSome by
    exact hgen ⟨[], []⟩ hmem
  clear hmem
  induction l with
  | nil => intro st h; simp at h
  | cons x l ih =>
    intro st hmem
    rcases List.mem_cons.1 hmem with rfl | hmem
    · constructor
      · exact foldl_addString_mono canon pre l _ _
          (lookup_addString_mono _ _ _ (lookup_addString_self _ _))
      · exact foldl_addString_mono canon pre l _ _ (lookup_addString_self _ _)
    · exact ih _ hmem

/-- Scanning for a NUL stops exactly at the stored terminator. -/
theorem takeWhile_append_nul (s : RStr) (R : List Nat) (hnul : 0 ∉ s) :
    (s ++ 0 :: R).takeWhile (fun b => !(b == 0)) = s := by
  induction s with
  | nil => simp
  | cons c cs ih =>
    have hc : c ≠ 0 := fun h => hnul (by simp [h])
    have hmem : 0 ∉ cs := fun h => hnul (by simp [h])
    simp only [List.cons_append, List.takeWhile_cons]
    have : (!(c == 0)) = true := by simpa using hc
    rw [this]
    simp [ih hmem]

/-- Resolving a NUL-terminated string at the offset where it is stored. -/
theorem extractString_at (a : List Nat) (s : RStr) (suf : List Nat) (hnul : 0 ∉ s) :
    extractString (a ++ (s ++ (0 :: suf))) a.length = some s := by
  unfold extractString
  rw [if_pos (by simp), List.drop_left]
  exact congrArg some (takeWhile_append_nul s suf hnul)

/-- Any interned string is recoverable from the built bytes: its lookup
succeeds with a relative offset strictly inside the string table, the
`u32` offset arithmetic does not wrap, and `extract_string` at the
absolute offset returns exactly the stored bytes. -/
theorem resolve_interned (canon : RPath → Option RPath) (pre : Option RPath)
    (libs : List ElfLibrary)
    (hs : 48 + 24 * (sortLibraries libs).length +
      (buildStringTable canon pre (sortLibraries libs)).table.length + 45 < 2 ^ 32)
    (s : RStr)
    (hsome : ((buildStringTable canon pre (sortLibraries libs)).offsets.lookup s).isSome) :
    ∃ rel, (buildStringTable canon pre (sortLibraries libs)).offsets.lookup s = some rel ∧
      rel < (buildStringTable canon pre (sortLibraries libs)).table.length ∧
      ((48 + 24 * (sortLibraries libs).length) % 2 ^ 32 + rel) % 2 ^ 32 =
        48 + 24 * (sortLibraries libs).length + rel ∧
      (0 ∉ s → extractString (buildCache canon pre libs)
        (48 + 24 * (sortLibraries libs).length + rel) = some s) := by
  set sorted := sortLibraries libs with hsorted
  set st := buildStringTable canon pre sorted with hst
  obtain ⟨rel, hrel⟩ := Option.isSome_iff_exists.1 hsome
  obtain ⟨a, b, htab, hoff⟩ := buildStringTable_inv canon pre sorted (s, rel)
    (lookup_mem hrel)
  have hlena : a.length + s.length + 1 + b.length = st.table.length := by
    have htab' : st.table = a ++ (s ++ 0 :: b) := htab
    rw [htab', List.length_append, List.length_append, List.length_cons]
    omega
  have hrel_eq : rel = a.length := by
    have hoff' : rel = a.length % 2 ^ 32 := hoff
    rw [hoff', Nat.mod_eq_of_lt (by omega)]
  have hbound : rel < st.table.length := by omega
  refine ⟨rel, hrel, hbound, by omega, ?_⟩
  intro hnul
  -- rewrite the built bytes so the string sits right after a known prefix
  set base := 48 + 24 * sorted.length with hbase
  set padLen := (4 - (base + st.table.length) % 4) % 4 with hpadLen
  set el := sorted.map (entryFor canon pre st (base % 2 ^ 32)) with hel
  set xo := base + st.table.length + padLen with hxo
  have hb : buildCache canon pre libs =
      ((headerBytes sorted.length st.table.length xo ++ (el.map entryBytes).flatten) ++ a)
        ++ (s ++ (0 :: (b ++ (List.replicate padLen 0 ++ extBytes xo)))) := by
    simp only [buildCache, ← hsorted, ← hst, hel, List.map_map, Function.comp_def,
      ← hbase, ← hpadLen, ← hxo]
    have htab' : st.table = a ++ (s ++ 0 :: b) := htab
    rw [htab']
    simp only [List.append_assoc, List.cons_append]
  have hplen : ((headerBytes sorted.length st.table.length xo ++
      (el.map entryBytes).flatten) ++ a).length = base + rel := by
    simp only [List.length_append, headerBytes_length, flattenEntryBytes_length, hel,
      List.length_map]
    omega
  have hx := extractString_at
    ((headerBytes sorted.length st.table.length xo ++ (el.map entryBytes).flatten) ++ a)
    s (b ++ (List.replicate padLen 0 ++ extBytes xo)) hnul
  rw [hplen, ← hb] at hx
  exact hx

/-! ### Claim theorems -/

/-- C1: for every list of library descriptors (whose serialized size
fits a `u32`, whose interned strings are NUL-free, and whose numeric
fields fit their wire widths), feeding the bytes produced by
`build_cache` into `parse_cache` succeeds — never panics — and returns
one entry per input descriptor whose name string (resolved via
`key_offset`), path string (resolved via `value_offset`), architecture
flags and capability bitmask reproduce the input set exactly, modulo the
defined sort order: the entries follow the sorted permutation of the
input, entry `i` resolving to the `i`-th sorted descriptor's filename
and serialized path with its `arch_to_flags` word and
`hwcap.unwrap_or(0)` bitmask. -/
theorem c1_codec_roundtrip (canon : RPath → Option RPath) (pre : Option RPath)
    (libs : List ElfLibrary)
    (hs : 48 + 24 * (sortLibraries libs).length +
      (buildStringTable canon pre (sortLibraries libs)).table.length + 45 < 2 ^ 32)
    (hnul : ∀ lib ∈ libs, 0 ∉ fileNameOrPath lib.path ∧
      0 ∉ pathToAdd canon pre lib.path)
    (hrange : ∀ lib ∈ libs, lib.osversion < 2 ^ 32 ∧ lib.hwcap.getD 0 < 2 ^ 64) :
    ∃ info, parseCache (buildCache canon pre libs) = some info ∧
      info.entries.length = libs.length ∧
      (sortLibraries libs).Perm libs ∧
      List.Forall₂ (fun lib e =>
        extractString (buildCache canon pre libs) e.keyOffset =
          some (fileNameOrPath lib.path) ∧
        extractString (buildCache canon pre libs) e.valueOffset =
          some (pathToAdd canon pre lib.path) ∧
        e.flags = archToFlags lib.arch lib.is64bit lib.isHardfloat ∧
        e.osversion = lib.osversion ∧
        e.hwcap = lib.hwcap.getD 0) (sortLibraries libs) info.entries := by
  have hperm : (sortLibraries libs).Perm libs := List.perm_insertionSort buildSortRel libs
  refine ⟨_, parseCache_buildCache canon pre libs hs, ?_, hperm, ?_⟩
  · show ((sortLibraries libs).map _).length = libs.length
    rw [List.length_map]
    exact hperm.length_eq
  · show List.Forall₂ _ (sortLibraries libs) ((sortLibraries libs).map
      (entryFor canon pre (buildStringTable canon pre (sortLibraries libs))
        ((48 + 24 * (sortLibraries libs).length) % 2 ^ 32)))
    rw [List.forall₂_map_right_iff, List.forall₂_same]
    intro lib hmem
    have hmem' : lib ∈ libs := hperm.mem_iff.1 hmem
    obtain ⟨hnulf, hnulp⟩ := hnul lib hmem'
    obtain ⟨hosv, hhw⟩ := hrange lib hmem'
    obtain ⟨hkSome, hvSome⟩ := buildStringTable_mem canon pre (sortLibraries libs) lib hmem
    obtain ⟨relK, hrelK, hbK, hmodK, hexK⟩ :=
      resolve_interned canon pre libs hs _ hkSome
    obtain ⟨relV, hrelV, hbV, hmodV, hexV⟩ :=
      resolve_interned canon pre libs hs _ hvSome
    refine ⟨?_, ?_, rfl, Nat.mod_eq_of_lt hosv, Nat.mod_eq_of_lt hhw⟩
    · show extractString (buildCache canon pre libs)
        (((48 + 24 * (sortLibraries libs).length) % 2 ^ 32 +
          ((buildStringTable canon pre (sortLibraries libs)).offsets.lookup
            (fileNameOrPath lib.path)).getD 0) % 2 ^ 32) = _
      rw [hrelK, Option.getD_some, hmodK]
      exact hexK hnulf
    · show extractString (buildCache canon pre libs)
        (((48 + 24 * (sortLibraries libs).length) % 2 ^ 32 +
          ((buildStringTable canon pre (sortLibraries libs)).offsets.lookup
            (pathToAdd canon pre lib.path)).getD 0) % 2 ^ 32) = _
      rw [hrelV, Option.getD_some, hmodV]
      exact hexV hnulp

/-- Witness for C1 at a concrete two-descriptor input. -/
theorem c1_codec_roundtrip_witness :
    ∃ info, parseCache (buildCache noCanon none [sampleLibB, sampleLibA]) = some info ∧
      info.entries.length = [sampleLibB, sampleLibA].length ∧
      (sortLibraries [sampleLibB, sampleLibA]).Perm [sampleLibB, sampleLibA] ∧
      List.Forall₂ (fun lib e =>
        extractString (buildCache noCanon none [sampleLibB, sampleLibA]) e.keyOffset =
          some (fileNameOrPath lib.path) ∧
        extractString (buildCache noCanon none [sampleLibB, sampleLibA]) e.valueOffset =
          some (pathToAdd noCanon none lib.path) ∧
        e.flags = archToFlags lib.arch lib.is64bit lib.isHardfloat ∧
        e.osversion = lib.osversion ∧
        e.hwcap = lib.hwcap.getD 0) (sortLibraries [sampleLibB, sampleLibA]) info.entries :=
  c1_codec_roundtrip noCanon none [sampleLibB, sampleLibA]
    (by decide) (by decide) (by decide)

set_option maxRecDepth 4000 in
/-- C3: for every descriptor list, the entries in the byte stream
produced by `build_cache` appear in an order that is non-increasing
under the key (filename descending byte-lexicographically, then
capability bitmask descending for equal filenames); and in particular,
given descriptors for `libfoo.so` and `libfoo.so.2`, the entry for
`libfoo.so.2` appears before the entry for `libfoo.so`. -/
theorem c3_sort_order :
    (∀ (canon : RPath → Option RPath) (pre : Option RPath) (libs : List ElfLibrary),
      48 + 24 * (sortLibraries libs).length +
        (buildStringTable canon pre (sortLibraries libs)).table.length + 45 < 2 ^ 32 →
      (∀ lib ∈ libs, 0 ∉ fileNameOrPath lib.path) →
      (∀ lib ∈ libs, lib.hwcap.getD 0 < 2 ^ 64) →
      ∃ info, parseCache (buildCache canon pre libs) = some info ∧
        List.Pairwise (fun e1 e2 => ∀ s1 s2,
          extractString (buildCache canon pre libs) e1.keyOffset = some s1 →
          extractString (buildCache canon pre libs) e2.keyOffset = some s2 →
          rstrCmp s1 s2 = .gt ∨ (s1 = s2 ∧ e2.hwcap ≤ e1.hwcap)) info.entries) ∧
    (parseCache (buildCache noCanon none [sampleLibB, sampleLibA])).map
        (fun info => info.entries.map (fun e =>
          extractString (buildCache noCanon none [sampleLibB, sampleLibA]) e.keyOffset)) =
      some [some (bytesOf "libfoo.so.2"), some (bytesOf "libfoo.so")] := by
  constructor
  · intro canon pre libs hs hnul hrange
    refine ⟨_, parseCache_buildCache canon pre libs hs, ?_⟩
    show List.Pairwise _ ((sortLibraries libs).map
      (entryFor canon pre (buildStringTable canon pre (sortLibraries libs))
        ((48 + 24 * (sortLibraries libs).length) % 2 ^ 32)))
    rw [List.pairwise_map]
    have hsorted : List.Pairwise buildSortRel (sortLibraries libs) :=
      @List.sorted_insertionSort ElfLibrary buildSortRel _
        ⟨buildSortRel_total⟩ ⟨fun a b c => buildSortRel_trans a b c⟩ libs
    refine hsorted.imp_of_mem ?_
    intro lib1 lib2 hm1 hm2 hrel
    have hperm : (sortLibraries libs).Perm libs := List.perm_insertionSort buildSortRel libs
    have hres : ∀ lib ∈ sortLibraries libs,
        extractString (buildCache canon pre libs)
          ((entryFor canon pre (buildStringTable canon pre (sortLibraries libs))
            ((48 + 24 * (sortLibraries libs).length) % 2 ^ 32) lib).keyOffset) =
          some (fileNameOrPath lib.path) := by
      intro lib hmem
      obtain ⟨hkSome, -⟩ := buildStringTable_mem canon pre (sortLibraries libs) lib hmem
      obtain ⟨relK, hrelK, -, hmodK, hexK⟩ := resolve_interned canon pre libs hs _ hkSome
      show extractString (buildCache canon pre libs)
        (((48 + 24 * (sortLibraries libs).length) % 2 ^ 32 +
          ((buildStringTable canon pre (sortLibraries libs)).offsets.lookup
            (fileNameOrPath lib.path)).getD 0) % 2 ^ 32) = _
      rw [hrelK, Option.getD_some, hmodK]
      exact hexK (hnul lib (hperm.mem_iff.1 hmem))
    intro s1 s2 h1 h2
    rw [hres lib1 hm1] at h1
    rw [hres lib2 hm2] at h2
    obtain rfl := Option.some.inj h1
    obtain rfl := Option.some.inj h2
    replace hrel : buildSortCmp lib1 lib2 ≠ .gt := hrel
    rw [buildSortLe_iff] at hrel
    have hw1 : (entryFor canon pre (buildStringTable canon pre (sortLibraries libs))
        ((48 + 24 * (sortLibraries libs).length) % 2 ^ 32) lib1).hwcap =
        libHw lib1 := Nat.mod_eq_of_lt (hrange lib1 (hperm.mem_iff.1 hm1))
    have hw2 : (entryFor canon pre (buildStringTable canon pre (sortLibraries libs))
        ((48 + 24 * (sortLibraries libs).length) % 2 ^ 32) lib2).hwcap =
        libHw lib2 := Nat.mod_eq_of_lt (hrange lib2 (hperm.mem_iff.1 hm2))
    rcases hrel with hlt | ⟨heq, hle⟩
    · left
      have := rstrCmp_swap (libName lib2) (libName lib1)
      rw [hlt] at this
      exact this.symm
    · right
      exact ⟨heq.symm, by rw [hw1, hw2]; exact hle⟩
  · decide

/-- Witness for the universally quantified part of C3 at a concrete
two-descriptor input. -/
theorem c3_sort_order_witness :
    ∃ info, parseCache (buildCache noCanon none [sampleLibB, sampleLibA]) = some info ∧
      List.Pairwise (fun e1 e2 => ∀ s1 s2,
        extractString (buildCache noCanon none [sampleLibB, sampleLibA]) e1.keyOffset =
          some s1 →
        extractString (buildCache noCanon none [sampleLibB, sampleLibA]) e2.keyOffset =
          some s2 →
        rstrCmp s1 s2 = .gt ∨ (s1 = s2 ∧ e2.hwcap ≤ e1.hwcap)) info.entries :=
  c3_sort_order.1 noCanon none [sampleLibB, sampleLibA]
    (by decide) (by decide) (by decide)

/-- C7: for every cache byte stream produced by `build_cache` with
`nlibs` entries and a `len_strings`-byte string table (of serialized
size fitting a `u32`), each entry's `key_offset` and `value_offset` fall
strictly within the half-open interval
`[48 + nlibs*24, 48 + nlibs*24 + len_strings)`: every string offset
points into the string-table region of the file. -/
theorem c7_offsets_into_string_table (canon : RPath → Option RPath)
    (pre : Option RPath) (libs : List ElfLibrary)
    (hs : 48 + 24 * (sortLibraries libs).length +
      (buildStringTable canon pre (sortLibraries libs)).table.length + 45 < 2 ^ 32) :
    ∃ info, parseCache (buildCache canon pre libs) = some info ∧
      ∀ e ∈ info.entries,
        (48 + 24 * info.header.nlibs ≤ e.keyOffset ∧
          e.keyOffset < 48 + 24 * info.header.nlibs + info.header.lenStrings) ∧
        (48 + 24 * info.header.nlibs ≤ e.valueOffset ∧
          e.valueOffset < 48 + 24 * info.header.nlibs + info.header.lenStrings) := by
  refine ⟨_, parseCache_buildCache canon pre libs hs, ?_⟩
  show ∀ e ∈ (sortLibraries libs).map
      (entryFor canon pre (buildStringTable canon pre (sortLibraries libs))
        ((48 + 24 * (sortLibraries libs).length) % 2 ^ 32)),
    (48 + 24 * (sortLibraries libs).length ≤ e.keyOffset ∧
      e.keyOffset < 48 + 24 * (sortLibraries libs).length +
        (buildStringTable canon pre (sortLibraries libs)).table.length) ∧
    (48 + 24 * (sortLibraries libs).length ≤ e.valueOffset ∧
      e.valueOffset < 48 + 24 * (sortLibraries libs).length +
        (buildStringTable canon pre (sortLibraries libs)).table.length)
  intro e he
  obtain ⟨lib, hmem, rfl⟩ := List.mem_map.1 he
  obtain ⟨hkSome, hvSome⟩ := buildStringTable_mem canon pre (sortLibraries libs) lib hmem
  obtain ⟨relK, hrelK, hbK, hmodK, -⟩ := resolve_interned canon pre libs hs _ hkSome
  obtain ⟨relV, hrelV, hbV, hmodV, -⟩ := resolve_interned canon pre libs hs _ hvSome
  constructor
  · show 48 + 24 * (sortLibraries libs).length ≤
        ((48 + 24 * (sortLibraries libs).length) % 2 ^ 32 +
          ((buildStringTable canon pre (sortLibraries libs)).offsets.lookup
            (fileNameOrPath lib.path)).getD 0) % 2 ^ 32 ∧
      ((48 + 24 * (sortLibraries libs).length) % 2 ^ 32 +
          ((buildStringTable canon pre (sortLibraries libs)).offsets.lookup
            (fileNameOrPath lib.path)).getD 0) % 2 ^ 32 <
        48 + 24 * (sortLibraries libs).length +
          (buildStringTable canon pre (sortLibraries libs)).table.length
    rw [hrelK, Option.getD_some, hmodK]
    exact ⟨by omega, by omega⟩
  · show 48 + 24 * (sortLibraries libs).length ≤
        ((48 + 24 * (sortLibraries libs).length) % 2 ^ 32 +
          ((buildStringTable canon pre (sortLibraries libs)).offsets.lookup
            (pathToAdd canon pre lib.path)).getD 0) % 2 ^ 32 ∧
      ((48 + 24 * (sortLibraries libs).length) % 2 ^ 32 +
          ((buildStringTable canon pre (sortLibraries libs)).offsets.lookup
            (pathToAdd canon pre lib.path)).getD 0) % 2 ^ 32 <
        48 + 24 * (sortLibraries libs).length +
          (buildStringTable canon pre (sortLibraries libs)).table.length
    rw [hrelV, Option.getD_some, hmodV]
    exact ⟨by omega, by omega⟩

/-- Witness for C7 at a concrete two-descriptor input. -/
theorem c7_offsets_into_string_table_witness :
    ∃ info, parseCache (buildCache noCanon none [sampleLibB, sampleLibA]) = some info ∧
      ∀ e ∈ info.entries,
        (48 + 24 * info.header.nlibs ≤ e.keyOffset ∧
          e.keyOffset < 48 + 24 * info.header.nlibs + info.header.lenStrings) ∧
        (48 + 24 * info.header.nlibs ≤ e.valueOffset ∧
          e.valueOffset < 48 + 24 * info.header.nlibs + info.header.lenStrings) :=
  c7_offsets_into_string_table noCanon none [sampleLibB, sampleLibA] (by decide)

/-- C8: for every list of library descriptors (and any canonicalization
behaviour and root prefix), `build_cache` writes the value `2`
(little-endian content) into the header's one-byte endianness tag at
byte offset 28 — never any other value.  (The model fixes the compile
target as little-endian, as `parse_cache`'s native-endian reads also
assume; on such targets the source's `cfg!` always selects `2`.) -/
theorem c8_endianness_tag (canon : RPath → Option RPath) (pre : Option RPath)
    (libs : List ElfLibrary) :
    (buildCache canon pre libs)[28]? = some 2 := by
  have hassoc : buildCache canon pre libs =
      (cacheMagic ++ le32 ((sortLibraries libs).length % 2 ^ 32) ++
        le32 ((buildStringTable canon pre (sortLibraries libs)).table.length % 2 ^ 32)) ++
      (2 :: ([0, 0, 0] ++
        (le32 (((48 + 24 * (sortLibraries libs).length +
          (buildStringTable canon pre (sortLibraries libs)).table.length) +
          (4 - (48 + 24 * (sortLibraries libs).length +
            (buildStringTable canon pre (sortLibraries libs)).table.length) % 4) % 4)
            % 2 ^ 32) ++
        (List.replicate 12 0 ++
          (((sortLibraries libs).map fun lib =>
            entryBytes (entryFor canon pre
              (buildStringTable canon pre (sortLibraries libs))
              ((48 + 24 * (sortLibraries libs).length) % 2 ^ 32) lib)).flatten ++
          ((buildStringTable canon pre (sortLibraries libs)).table ++
          (List.replicate ((4 - (48 + 24 * (sortLibraries libs).length +
            (buildStringTable canon pre (sortLibraries libs)).table.length) % 4) % 4) 0 ++
          extBytes ((48 + 24 * (sortLibraries libs).length +
            (buildStringTable canon pre (sortLibraries libs)).table.length) +
            (4 - (48 + 24 * (sortLibraries libs).length +
              (buildStringTable canon pre (sortLibraries libs)).table.length) % 4) % 4)))))))) := by
    simp only [buildCache, headerBytes, List.append_assoc, List.cons_append,
      List.nil_append]
  have hplen : (cacheMagic ++ le32 ((sortLibraries libs).length % 2 ^ 32) ++
      le32 ((buildStringTable canon pre (sortLibraries libs)).table.length % 2 ^ 32)).length
      = 28 := by
    simp [cacheMagic_length, le32_length]
  have hx := getElem?_off (cacheMagic ++ le32 ((sortLibraries libs).length % 2 ^ 32) ++
    le32 ((buildStringTable canon pre (sortLibraries libs)).table.length % 2 ^ 32))
    (2 :: ([0, 0, 0] ++
        (le32 (((48 + 24 * (sortLibraries libs).length +
          (buildStringTable canon pre (sortLibraries libs)).table.length) +
          (4 - (48 + 24 * (sortLibraries libs).length +
            (buildStringTable canon pre (sortLibraries libs)).table.length) % 4) % 4)
            % 2 ^ 32) ++
        (List.replicate 12 0 ++
          (((sortLibraries libs).map fun lib =>
            entryBytes (entryFor canon pre
              (buildStringTable canon pre (sortLibraries libs))
              ((48 + 24 * (sortLibraries libs).length) % 2 ^ 32) lib)).flatten ++
          ((buildStringTable canon pre (sortLibraries libs)).table ++
          (List.replicate ((4 - (48 + 24 * (sortLibraries libs).length +
            (buildStringTable canon pre (sortLibraries libs)).table.length) % 4) % 4) 0 ++
          extBytes ((48 + 24 * (sortLibraries libs).length +
            (buildStringTable canon pre (sortLibraries libs)).table.length) +
            (4 - (48 + 24 * (sortLibraries libs).length +
              (buildStringTable canon pre (sortLibraries libs)).table.length) % 4) % 4)))))))) 0
  rw [hplen, Nat.add_zero, ← hassoc] at hx
  rw [hx]
  rfl

/-- C2 (code-bug evidence): the claim says every malformed byte
sequence yields a typed error, but `parse_cache` panics on an empty
stream, on a 47-byte stream shorter than the header, and on a header
whose entry count promises more 24-byte entries than the data contains
(`none` is the panic marker); and on an entry whose string offsets point
far out of range it returns success with no validation at all — the one
place bounds are checked, `extract_string`, is the separate reader
helper, which does fail there. -/
theorem c2_parse_malformed_evidence :
    parseCache [] = none ∧
    parseCache truncatedHeader = none ∧
    parseCache headerPromisingOneEntry = none ∧
    (parseCache entryWithHugeOffsets).map CacheInfo.entries =
      some [{ flags := 0, keyOffset := 4294967295, valueOffset := 4294967295,
              osversion := 0, hwcap := 0 }] ∧
    extractString entryWithHugeOffsets 4294967295 = none := by
  refine ⟨rfl, ?_, ?_, ?_, ?_⟩ <;> decide

/-! ### The comparator on strict-prefix pairs -/

/-- When every element of the first segment matches, a scan continues
into the second. -/
theorem takeWhile_append_all (p : Nat → Bool) :
    ∀ (a s : List Nat), (∀ x ∈ a, p x = true) →
    (a ++ s).takeWhile p = a ++ s.takeWhile p := by
  intro a
  induction a with
  | nil => intro s _; rfl
  | cons x xs ih =>
    intro s h
    have hx : p x = true := h x (by simp)
    simp only [List.cons_append, List.takeWhile_cons, hx, if_true]
    rw [ih s fun y hy => h y (by simp [hy])]

/-- When every element of the first segment matches, dropping the run
drops past it. -/
theorem dropWhile_append_all (p : Nat → Bool) :
    ∀ (a s : List Nat), (∀ x ∈ a, p x = true) →
    (a ++ s).dropWhile p = s.dropWhile p := by
  intro a
  induction a with
  | nil => intro s _; rfl
  | cons x xs ih =>
    intro s h
    have hx : p x = true := h x (by simp)
    simp only [List.cons_append, List.dropWhile_cons, hx, if_pos]
    exact ih s fun y hy => h y (by simp [hy])

/-- When the scan stops inside the first segment, appending changes
nothing about the matched run. -/
theorem takeWhile_append_stop (p : Nat → Bool) :
    ∀ (a s : List Nat), a.dropWhile p ≠ [] →
    (a ++ s).takeWhile p = a.takeWhile p := by
  intro a
  induction a with
  | nil => intro s h; exact absurd rfl h
  | cons x xs ih =>
    intro s h
    by_cases hx : p x
    · rw [List.dropWhile_cons, if_pos hx] at h
      simp only [List.cons_append, List.takeWhile_cons, hx]
      rw [ih s h]
    · have hx' : p x = false := by simpa using hx
      simp [List.takeWhile_cons, hx']

/-- When the scan stops inside the first segment, the remainder keeps
the appended tail. -/
theorem dropWhile_append_stop (p : Nat → Bool) :
    ∀ (a s : List Nat), a.dropWhile p ≠ [] →
    (a ++ s).dropWhile p = a.dropWhile p ++ s := by
  intro a
  induction a with
  | nil => intro s h; exact absurd rfl h
  | cons x xs ih =>
    intro s h
    by_cases hx : p x
    · rw [List.dropWhile_cons, if_pos hx] at h
      simp only [List.cons_append, List.dropWhile_cons, hx, if_pos]
      exact ih s h
    · have hx' : p x = false := by simpa using hx
      simp [List.dropWhile_cons, hx']

/-- A nonempty remainder of a scan ends where the list ends. -/
theorem getLast?_dropWhile (p : Nat → Bool) :
    ∀ (a : List Nat), a.dropWhile p ≠ [] →
    (a.dropWhile p).getLast? = a.getLast? := by
  intro a
  induction a with
  | nil => intro h; exact absurd rfl h
  | cons x xs ih =>
    intro h
    by_cases hx : p x
    · rw [List.dropWhile_cons, if_pos hx] at h ⊢
      rw [ih h]
      cases xs with
      | nil => exact absurd rfl h
      | cons y ys => rw [List.getLast?_cons_cons]
    · have hx' : p x = false := by simpa using hx
      simp [List.dropWhile_cons, hx']

/-- Strict prefixes compare strictly below their extensions whenever the
extension does not continue a trailing digit run (fuel-indexed form). -/
theorem clv_append_lt_aux :
    ∀ (n : Nat) (a s : RStr), a.length ≤ n → s ≠ [] →
    (endsInDigit a && startsWithDigit s) = false →
    compareLibraryVersions a (a ++ s) = .lt := by
  intro n
  induction n with
  | zero =>
    intro a s hlen hs _
    have ha : a = [] := List.length_eq_zero.1 (Nat.le_zero.1 hlen)
    subst ha
    cases s with
    | nil => exact absurd rfl hs
    | cons d ds => simp [compareLibraryVersions]
  | succ n ih =>
    intro a s hlen hs hbd
    cases a with
    | nil =>
      cases s with
      | nil => exact absurd rfl hs
      | cons d ds => simp [compareLibraryVersions]
    | cons ac as_ =>
      have hcons : (ac :: as_) ++ s = ac :: (as_ ++ s) := rfl
      by_cases hd : isAsciiDigit ac = true
      · -- digit head on both sides: the digit-run branch fires
        by_cases hrest : (ac :: as_).dropWhile isAsciiDigit = []
        · -- the run covers all of `a`, so `s` must not begin with a digit
          have hall : ∀ x ∈ ac :: as_, isAsciiDigit x = true :=
            List.dropWhile_eq_nil_iff.1 hrest
          have hend : endsInDigit (ac :: as_) = true := by
            unfold endsInDigit
            cases hlast : (ac :: as_).getLast? with
            | none => exact absurd (List.getLast?_eq_none_iff.1 hlast) (by simp)
            | some c => exact hall c (List.mem_of_mem_getLast? hlast)
          have hstart : startsWithDigit s = false := by
            rcases hb : startsWithDigit s with _ | _
            · rfl
            · rw [hend, hb] at hbd
              exact absurd hbd (by simp)
          obtain ⟨d, ds, rfl⟩ : ∃ d ds, s = d :: ds := by
            cases s with
            | nil => exact absurd rfl hs
            | cons d ds => exact ⟨d, ds, rfl⟩
          have hdnot : isAsciiDigit d = false := by
            unfold startsWithDigit at hstart
            simpa using hstart
          have htake : ((ac :: as_) ++ d :: ds).takeWhile isAsciiDigit =
              (ac :: as_).takeWhile isAsciiDigit := by
            rw [takeWhile_append_all isAsciiDigit _ _ hall]
            rw [show (d :: ds).takeWhile isAsciiDigit = [] by
              simp [List.takeWhile_cons, hdnot]]
            rw [List.append_nil]
            rw [show (ac :: as_).takeWhile isAsciiDigit = ac :: as_ from ?_]
            have := takeWhile_append_all isAsciiDigit (ac :: as_) [] hall
            simpa using this
          have hdropb : ((ac :: as_) ++ d :: ds).dropWhile isAsciiDigit = d :: ds := by
            rw [dropWhile_append_all isAsciiDigit _ _ hall]
            simp [List.dropWhile_cons, hdnot]
          simp only [compareLibraryVersions, hd, hcons]
          rw [← hcons, htake, hdropb, hrest]
          simp [compareLibraryVersions]
        · -- the run stops inside `a`
          have htake : ((ac :: as_) ++ s).takeWhile isAsciiDigit =
              (ac :: as_).takeWhile isAsciiDigit :=
            takeWhile_append_stop isAsciiDigit _ s hrest
          have hdropb : ((ac :: as_) ++ s).dropWhile isAsciiDigit =
              (ac :: as_).dropWhile isAsciiDigit ++ s :=
            dropWhile_append_stop isAsciiDigit _ s hrest
          have hlast : ((ac :: as_).dropWhile isAsciiDigit).getLast? =
              (ac :: as_).getLast? := getLast?_dropWhile isAsciiDigit _ hrest
          have hlen' : ((ac :: as_).dropWhile isAsciiDigit).length ≤ n := by
            rw [List.dropWhile_cons, if_pos hd]
            have := length_dropWhile_le' isAsciiDigit as_
            simp only [List.length_cons] at hlen
            omega
          have hbd' : (endsInDigit ((ac :: as_).dropWhile isAsciiDigit) &&
              startsWithDigit s) = false := by
            unfold endsInDigit
            rw [hlast]
            exact hbd
          have hrec := ih ((ac :: as_).dropWhile isAsciiDigit) s hlen' hs hbd'
          simp only [compareLibraryVersions, hd, hcons]
          rw [← hcons, htake, hdropb]
          simp [hrec]
      · -- non-digit head: single-byte comparison, equal bytes advance
        have hd' : isAsciiDigit ac = false := by simpa using hd
        have hbd' : (endsInDigit as_ && startsWithDigit s) = false := by
          cases as_ with
          | nil => simp [endsInDigit]
          | cons y ys =>
            unfold endsInDigit at hbd ⊢
            rw [List.getLast?_cons_cons] at hbd
            exact hbd
        have hrec : compareLibraryVersions as_ (as_ ++ s) = .lt := by
          cases as_ with
          | nil =>
            cases s with
            | nil => exact absurd rfl hs
            | cons d ds => simp [compareLibraryVersions]
          | cons y ys =>
            refine ih (y :: ys) s ?_ hs hbd'
            simp only [List.length_cons] at hlen ⊢
            omega
        simp only [compareLibraryVersions, hd', hcons]
        simp [hrec]

/-- C4 (counterexample): the claim says the comparator ranks a strict
prefix below the longer name, but `"libfoo.so.0"` is a strict prefix of
`"libfoo.so.00"` and the comparator answers `Equal`, not `Less`: the
extension merely lengthens the trailing digit run without changing its
numeric value. -/
theorem c4_strict_prefix_counterexample :
    compareLibraryVersions (bytesOf "libfoo.so.0") (bytesOf "libfoo.so.00") = .eq ∧
    ¬ compareLibraryVersions (bytesOf "libfoo.so.0") (bytesOf "libfoo.so.00") = .lt ∧
    bytesOf "libfoo.so.00" = bytesOf "libfoo.so.0" ++ bytesOf "0" ∧
    bytesOf "0" ≠ [] := by
  have h : compareLibraryVersions (bytesOf "libfoo.so.0") (bytesOf "libfoo.so.00") =
      .eq := by
    simp [compareLibraryVersions, bytesOf, digitRunVal, isAsciiDigit]
  exact ⟨h, by rw [h]; decide, by decide, by decide⟩

/-- C4 (amended): the version comparator treats maximal runs of decimal
digits as numeric tokens compared by numeric value (accumulated in
64-bit arithmetic), compares non-digit bytes by code point, and ranks a
strict prefix below the longer name whenever the extension does not
continue a trailing digit run; when it does, the verdict follows the
numeric comparison of the runs and can be `Equal` (e.g. `"libfoo.so.0"`
vs `"libfoo.so.00"`).  In particular `compare("libfoo.so.9",
"libfoo.so.10")` ranks the latter higher, `compare("libfoo.so.1.2",
"libfoo.so.1.10")` ranks the latter higher, and `compare("libfoo.so",
"libfoo.so.1")` ranks the suffixed name higher. -/
theorem c4_version_comparator_amended :
    (∀ a s : RStr, s ≠ [] → (endsInDigit a && startsWithDigit s) = false →
      compareLibraryVersions a (a ++ s) = .lt) ∧
    compareLibraryVersions (bytesOf "libfoo.so.9") (bytesOf "libfoo.so.10") = .lt ∧
    compareLibraryVersions (bytesOf "libfoo.so.1.2") (bytesOf "libfoo.so.1.10") = .lt ∧
    compareLibraryVersions (bytesOf "libfoo.so") (bytesOf "libfoo.so.1") = .lt ∧
    compareLibraryVersions (bytesOf "libfoo.so.0") (bytesOf "libfoo.so.00") = .eq := by
  refine ⟨fun a s hs hbd => clv_append_lt_aux a.length a s le_rfl hs hbd, ?_, ?_, ?_, ?_⟩
  · simp [compareLibraryVersions, bytesOf, digitRunVal, isAsciiDigit]
    decide
  · simp [compareLibraryVersions, bytesOf, digitRunVal, isAsciiDigit]
    decide
  · simp [compareLibraryVersions, bytesOf, digitRunVal, isAsciiDigit]
  · simp [compareLibraryVersions, bytesOf, digitRunVal, isAsciiDigit]

/-- Witness for the strict-prefix part of C4 at a concrete input. -/
theorem c4_version_comparator_amended_witness :
    compareLibraryVersions (bytesOf "libbar.so") (bytesOf "libbar.so" ++ bytesOf ".5") =
      .lt :=
  c4_version_comparator_amended.1 (bytesOf "libbar.so") (bytesOf ".5")
    (by decide) (by decide)

/-- C10: the version comparator returns `Equal` on the distinct
filenames `"libfoo.so.010"` and `"libfoo.so.10"` (numerically equal but
textually different digit runs), so it is not antisymmetric with respect
to string equality; consequently `find_highest_version_library` selects
by position among such ties: listed in either order, the later
descriptor wins. -/
theorem c10_equal_ties_position_dependent :
    compareLibraryVersions (bytesOf "libfoo.so.010") (bytesOf "libfoo.so.10") = .eq ∧
    bytesOf "libfoo.so.010" ≠ bytesOf "libfoo.so.10" ∧
    findHighestVersionLibrary [sampleTieA, sampleTieB] = some sampleTieB ∧
    findHighestVersionLibrary [sampleTieB, sampleTieA] = some sampleTieA := by
  have h1 : compareLibraryVersions (bytesOf "libfoo.so.010") (bytesOf "libfoo.so.10") =
      .eq := by
    simp [compareLibraryVersions, bytesOf, digitRunVal, isAsciiDigit]
  have h2 : compareLibraryVersions (bytesOf "libfoo.so.10") (bytesOf "libfoo.so.010") =
      .eq := by
    simp [compareLibraryVersions, bytesOf, digitRunVal, isAsciiDigit]
  refine ⟨h1, by decide, ?_, ?_⟩
  · show some (if compareLibraryVersions (fileNameOrEmpty sampleTieB.path)
        (fileNameOrEmpty sampleTieA.path) = .lt then sampleTieA else sampleTieB) =
      some sampleTieB
    have hb : fileNameOrEmpty sampleTieB.path = bytesOf "libfoo.so.10" := rfl
    have ha : fileNameOrEmpty sampleTieA.path = bytesOf "libfoo.so.010" := rfl
    rw [hb, ha, h2]
    simp
  · show some (if compareLibraryVersions (fileNameOrEmpty sampleTieA.path)
        (fileNameOrEmpty sampleTieB.path) = .lt then sampleTieB else sampleTieA) =
      some sampleTieA
    have hb : fileNameOrEmpty sampleTieB.path = bytesOf "libfoo.so.10" := rfl
    have ha : fileNameOrEmpty sampleTieA.path = bytesOf "libfoo.so.010" := rfl
    rw [hb, ha, h1]
    simp

/-- C5 (counterexample): in `sampleFsStale` an object exists at the link
path `/usr/lib/libfoo.so.1` and its canonicalized current target differs
from the canonicalized intended target, yet the reconciler's emitted
action has kind `Create`, not `Update` — the source pushes
`SymlinkActionType::Create` unconditionally. -/
theorem c5_update_kind_counterexample :
    existsAt sampleFsStale [bytesOf "usr", bytesOf "lib", bytesOf "libfoo.so.1"] = true ∧
    canonF sampleFsStale [bytesOf "libfoo.so.1.0"] ≠
      canonF sampleFsStale [bytesOf "usr", bytesOf "lib", bytesOf "libfoo.so.1.5"] ∧
    (updateSymlinks sampleFsStale [sampleReconLib] false).map
        (fun r => r.1.map SymlinkAction.action) = some [.create] := by
  decide

/-- Every action `processGroup` appends has kind `Create`. -/
theorem processGroup_actions (dryRun : Bool) (acc : List SymlinkAction × Fs)
    (g : RStr × List ElfLibrary) (res : List SymlinkAction × Fs)
    (h : processGroup dryRun acc g = some res)
    (hacc : ∀ a ∈ acc.1, a.action = .create) :
    ∀ a ∈ res.1, a.action = .create := by
  by_cases he : g.2.isEmpty = true
  · simp [processGroup, he] at h
    rw [← h]; exact hacc
  · cases hbest : findHighestVersionLibrary g.2 with
    | none => simp [processGroup, he, hbest] at h
    | some best =>
      by_cases hfn : fileNameOrEmpty best.path = g.1
      · simp [processGroup, he, hbest, hfn] at h
        rw [← h]; exact hacc
      · by_cases hbp : best.path = []
        · simp [processGroup, he, hbest, hfn, hbp] at h
          rw [← h.2]; exact hacc
        · by_cases hsc : shouldCreateSymlink acc.2 (dirOf best.path ++ [g.1]) best.path = true
          · have hres1 : res.1 = acc.1 ++
                [⟨fileNameOrEmpty best.path, dirOf best.path ++ [g.1], .create⟩] := by
              cases dryRun
              · simp [processGroup, he, hbest, hfn, hbp, hsc] at h
                rw [← h]
              · simp [processGroup, he, hbest, hfn, hbp, hsc] at h
                rw [← h]
            rw [hres1]
            intro a ha
            rcases List.mem_append.1 ha with hm | hm
            · exact hacc a hm
            · rcases List.mem_singleton.1 hm with rfl
              rfl
          · simp [processGroup, he, hbest, hfn, hbp, hsc] at h
            rw [← h]; exact hacc

/-- Folding `processGroup` over the groups preserves the all-`Create`
property of the accumulated action list. -/
theorem foldlM_processGroup_actions (dryRun : Bool) :
    ∀ (gs : List (RStr × List ElfLibrary)) (acc res : List SymlinkAction × Fs),
      gs.foldlM (processGroup dryRun) acc = some res →
      (∀ a ∈ acc.1, a.action = .create) → ∀ a ∈ res.1, a.action = .create := by
  intro gs
  induction gs with
  | nil =>
    intro acc res h hacc
    have h' : acc = res := Option.some.inj h
    rw [← h']; exact hacc
  | cons g rest ih =>
    intro acc res h hacc
    simp only [List.foldlM] at h
    cases hpg : processGroup dryRun acc g with
    | none => rw [hpg] at h; simp at h
    | some acc' =>
      rw [hpg] at h
      exact ih acc' res h (processGroup_actions dryRun acc g acc' hpg hacc)

/-- C5 (amended): only `Create` actions ever appear in the reconciler's
result — the kind is pushed unconditionally, so an existing link with a
stale target also yields `Create` (the source removes the old object and
creates the new link, but the reported kind is still `Create`, never
`Update`).  The create/skip decision itself follows
`should_create_symlink`: a missing link object means create; a readable
link means create exactly when the canonicalized current and intended
targets differ; an existing but unreadable link means create. -/
theorem c5_actions_amended :
    (∀ (fs : Fs) (libs : List ElfLibrary) (dryRun : Bool)
       (acts : List SymlinkAction) (fs' : Fs),
       updateSymlinks fs libs dryRun = some (acts, fs') →
       ∀ a ∈ acts, a.action = .create) ∧
    (∀ (fs : Fs) (link target : RPath),
       (existsAt fs link = false → shouldCreateSymlink fs link target = true) ∧
       (∀ c, existsAt fs link = true → readLinkAt fs link = some c →
         shouldCreateSymlink fs link target =
           decide (canonF fs c ≠ canonF fs target)) ∧
       (existsAt fs link = true → readLinkAt fs link = none →
         shouldCreateSymlink fs link target = true)) := by
  constructor
  · intro fs libs dryRun acts fs' h
    exact foldlM_processGroup_actions dryRun _ ([], fs) (acts, fs') h (by intro a ha; simp at ha)
  · intro fs link target
    refine ⟨?_, ?_, ?_⟩
    · intro hne
      simp [shouldCreateSymlink, hne]
    · intro c hex hrl
      simp [shouldCreateSymlink, hex, hrl]
    · intro hex hrl
      simp [shouldCreateSymlink, hex, hrl]

/-- Witness for C5's amended statement at a concrete reconciler run. -/
theorem c5_actions_amended_witness :
    SymlinkAction.action
      ⟨bytesOf "libfoo.so.1.5",
       [bytesOf "usr", bytesOf "lib", bytesOf "libfoo.so.1"], .create⟩ = .create :=
  c5_actions_amended.1 sampleFsStale [sampleReconLib] true
    [⟨bytesOf "libfoo.so.1.5",
      [bytesOf "usr", bytesOf "lib", bytesOf "libfoo.so.1"], .create⟩]
    sampleFsStale rfl _ (by decide)

/-- C6 (counterexample): the `(x86_64, sse)` bitmask is `0`, so the file
discovered under the recognized `sse` capability tier ends up with
capability bitmask `Some 0` — the override to
`bitmask_for(tag, true arch)` happens, but the result is not nonzero. -/
theorem c6_zero_bitmask_counterexample :
    hwcapToBitmask .sse .x86_64 = 0 ∧
    (scanAllLibraries sampleScanFs [[bytesOf "lib"]]).map
        (fun r => r.1.map ElfLibrary.hwcap) = some [some 0] := by
  decide

/-- Every descriptor the capability-subdirectory scan adds (beyond the
accumulator) carries exactly the bitmask recomputed from the tier tag
and its own architecture. -/
theorem scanHwcapEntries_hwcap (fs : ScanFs) (dir : RPath) (hw : HwCap) :
    ∀ (es : List DirEntry) (acc : List ElfLibrary × List ElfLibrary) (lib : ElfLibrary),
      (lib ∈ (scanHwcapEntries fs dir hw es acc).1 ∨
        lib ∈ (scanHwcapEntries fs dir hw es acc).2) →
      (lib ∈ acc.1 ∨ lib ∈ acc.2) ∨ lib.hwcap = some (hwcapToBitmask hw lib.arch) := by
  intro es
  induction es with
  | nil => intro acc lib h; exact Or.inl h
  | cons e rest ih =>
    intro acc lib h
    simp only [scanHwcapEntries, List.foldl] at h ih
    by_cases hf : (e.isFile && shouldScanLibrary (dir ++ [e.name])) = true
    · rw [if_pos hf] at h
      cases hpe : fs.parseElf (dir ++ [e.name]) with
      | none =>
        simp only [hpe] at h
        exact ih acc lib h
      | some lib0 =>
        simp only [hpe] at h
        by_cases hsym : e.isSymlink = true
        · rw [if_pos hsym] at h
          rcases ih _ lib h with hm | hbm
          · rcases hm with hm | hm
            · exact Or.inl (Or.inl hm)
            · rcases List.mem_append.1 hm with hm' | hm'
              · exact Or.inl (Or.inr hm')
              · rcases List.mem_singleton.1 hm' with rfl
                exact Or.inr rfl
          · exact Or.inr hbm
        · rw [if_neg hsym] at h
          rcases ih _ lib h with hm | hbm
          · rcases hm with hm | hm
            · rcases List.mem_append.1 hm with hm' | hm'
              · exact Or.inl (Or.inl hm')
              · rcases List.mem_singleton.1 hm' with rfl
                exact Or.inr rfl
            · exact Or.inl (Or.inr hm)
          · exact Or.inr hbm
    · rw [if_neg hf] at h
      exact ih acc lib h

/-- C6 (amended): every descriptor placed in the scan results from a
recognized capability-tier subdirectory carries bitmask
`bitmask_for(tag, the descriptor's architecture)`, overriding any
path-based pre-guess — but that bitmask can be zero (e.g. the `sse` tier
on x86-64).  Concretely, under the `haswell` tier the pre-guess `1` is
overridden with `to_bitmask(haswell, x86_64) = 2`. -/
theorem c6_hwcap_override_amended :
    (∀ (fs : ScanFs) (dir : RPath) (hw : HwCap) (es : List DirEntry)
       (acc : List ElfLibrary × List ElfLibrary) (lib : ElfLibrary),
       lib ∈ (scanHwcapEntries fs dir hw es acc).1 →
       (lib ∈ acc.1 ∨ lib ∈ acc.2) ∨ lib.hwcap = some (hwcapToBitmask hw lib.arch)) ∧
    (sampleScanFsH.parseElf
        [bytesOf "lib", bytesOf "haswell", bytesOf "libfoo.so.1"]).map
      ElfLibrary.hwcap = some (some 1) ∧
    (scanAllLibraries sampleScanFsH [[bytesOf "lib"]]).map
        (fun r => r.1.map ElfLibrary.hwcap) = some [some 2] ∧
    hwcapToBitmask .haswell .x86_64 = 2 := by
  refine ⟨?_, by decide, by decide, by decide⟩
  intro fs dir hw es acc lib h
  exact scanHwcapEntries_hwcap fs dir hw es acc lib (Or.inl h)

/-- Witness for C6's amended statement at the `haswell` sample scan. -/
theorem c6_hwcap_override_amended_witness :
    (sampleHLib ∈ ([] : List ElfLibrary) ∨ sampleHLib ∈ ([] : List ElfLibrary)) ∨
      sampleHLib.hwcap = some (hwcapToBitmask .haswell sampleHLib.arch) :=
  c6_hwcap_override_amended.1 sampleScanFsH [bytesOf "lib", bytesOf "haswell"] .haswell
    [⟨bytesOf "libfoo.so.1", true, false, false⟩] ([], []) sampleHLib (by decide)

/-- Removing one key from the object map leaves lookups of any other
key unchanged. -/
theorem lookup_fsRemove (q p : RPath) (h : p ≠ q) :
    ∀ objs : List (RPath × FsObj), (fsRemove objs q).lookup p = objs.lookup p := by
  intro objs
  induction objs with
  | nil => rfl
  | cons e rest ih =>
    obtain ⟨k, v⟩ := e
    by_cases hk : k = q
    · have hpk : (p == k) = false := beq_eq_false_iff_ne.2 fun hh => h (hh.trans hk)
      have hkq : (!(k == q)) = false := by simp [hk]
      simp only [fsRemove, List.filter] at ih ⊢
      rw [hkq]
      simp only [List.lookup, hpk]
      simpa [fsRemove, List.filter] using ih
    · have hkq : (!(k == q)) = true := by simp [hk]
      simp only [fsRemove, List.filter] at ih ⊢
      rw [hkq]
      simp only [List.lookup]
      cases hpq : p == k
      · simpa [fsRemove, List.filter] using ih
      · rfl

/-- The create/skip decision depends on the filesystem only through the
object stored at the link path and the canonicalization oracle. -/
theorem shouldCreateSymlink_congr (fs0 fsw : Fs) (link target : RPath)
    (hc : fsw.canon = fs0.canon) (hl : fsLookup fsw link = fsLookup fs0 link) :
    shouldCreateSymlink fsw link target = shouldCreateSymlink fs0 link target := by
  unfold shouldCreateSymlink existsAt readLinkAt canonF
  rw [hl, hc]

/-- The soname-accumulating fold keeps its accumulator duplicate-free. -/
theorem foldl_soname_nodup :
    ∀ (libs : List ElfLibrary) (acc : List RStr), acc.Nodup →
      (libs.foldl (fun acc l =>
        if acc.contains l.soname then acc else acc ++ [l.soname]) acc).Nodup := by
  intro libs
  induction libs with
  | nil => intro acc h; exact h
  | cons l rest ih =>
    intro acc h
    simp only [List.foldl]
    by_cases hc : acc.contains l.soname = true
    · rw [if_pos hc]; exact ih acc h
    · rw [if_neg hc]
      apply ih
      have hnm : l.soname ∉ acc := by
        intro hm
        exact hc (by simpa using hm)
      exact List.nodup_append.2 ⟨h, List.nodup_singleton _,
        fun x hx hx2 => hnm ((List.mem_singleton.1 hx2) ▸ hx)⟩

/-- The grouping keys are duplicate-free. -/
theorem groupSonames_nodup (libs : List ElfLibrary) : (groupSonames libs).Nodup :=
  foldl_soname_nodup libs [] List.nodup_nil

/-- A dry-run group step never changes the filesystem component. -/
theorem processGroup_dry_fs (acc : List SymlinkAction × Fs) (g : RStr × List ElfLibrary)
    (res : List SymlinkAction × Fs) (h : processGroup true acc g = some res) :
    res.2 = acc.2 := by
  by_cases he : g.2.isEmpty = true
  · simp [processGroup, he] at h
    rw [← h]
  · cases hbest : findHighestVersionLibrary g.2 with
    | none => simp [processGroup, he, hbest] at h
    | some best =>
      by_cases hfn : fileNameOrEmpty best.path = g.1
      · simp [processGroup, he, hbest, hfn] at h
        rw [← h]
      · by_cases hbp : best.path = []
        · simp [processGroup, he, hbest, hfn, hbp] at h
          rw [← h.2]
        · by_cases hsc : shouldCreateSymlink acc.2 (dirOf best.path ++ [g.1]) best.path = true
          · simp [processGroup, he, hbest, hfn, hbp, hsc] at h
            rw [← h]
          · simp [processGroup, he, hbest, hfn, hbp, hsc] at h
            rw [← h]

/-- A dry-run fold over the groups never changes the filesystem
component. -/
theorem foldlM_dry_fs :
    ∀ (gs : List (RStr × List ElfLibrary)) (acts : List SymlinkAction) (fs : Fs)
      (res : List SymlinkAction × Fs),
      gs.foldlM (processGroup true) (acts, fs) = some res → res.2 = fs := by
  intro gs
  induction gs with
  | nil =>
    intro acts fs res h
    have h' : (acts, fs) = res := Option.some.inj h
    rw [← h']
  | cons g rest ih =>
    intro acts fs res h
    simp only [List.foldlM] at h
    cases hpg : processGroup true (acts, fs) g with
    | none => rw [hpg] at h; simp at h
    | some acc' =>
      rw [hpg] at h
      have h2 : acc'.2 = fs := processGroup_dry_fs (acts, fs) g acc' hpg
      obtain ⟨a', f'⟩ := acc'
      rw [ih a' f' res h]
      exact h2

/-- Dry and non-dry folds over the same groups return the same action
list, provided the running filesystem agrees with the reference one on
every path whose last component is a still-unprocessed soname and the
group keys are duplicate-free: each non-dry mutation touches only the
path of its own soname, which later groups never consult. -/
theorem foldlM_dry_wet (fs0 : Fs) :
    ∀ (gs : List (RStr × List ElfLibrary)) (acts : List SymlinkAction) (fsw : Fs),
      fsw.canon = fs0.canon →
      (∀ p : RPath, (∃ g ∈ gs, p.getLast? = some g.1) →
        fsLookup fsw p = fsLookup fs0 p) →
      (gs.map Prod.fst).Nodup →
      (gs.foldlM (processGroup true) (acts, fs0)).map Prod.fst =
        (gs.foldlM (processGroup false) (acts, fsw)).map Prod.fst := by
  intro gs
  induction gs with
  | nil => intro acts fsw hc hl hnd; rfl
  | cons g rest ih =>
    intro acts fsw hc hl hnd
    simp only [List.map_cons, List.nodup_cons] at hnd
    have hgnot : g.1 ∉ rest.map Prod.fst := hnd.1
    have hnd' : (rest.map Prod.fst).Nodup := hnd.2
    have hl' : ∀ p : RPath, (∃ g' ∈ rest, p.getLast? = some g'.1) →
        fsLookup fsw p = fsLookup fs0 p := by
      intro p hp
      obtain ⟨g', hg', hpl⟩ := hp
      exact hl p ⟨g', List.mem_cons_of_mem g hg', hpl⟩
    simp only [List.foldlM]
    by_cases he : g.2.isEmpty = true
    · have h1 : processGroup true (acts, fs0) g = some (acts, fs0) := by
        simp [processGroup, he]
      have h2 : processGroup false (acts, fsw) g = some (acts, fsw) := by
        simp [processGroup, he]
      rw [h1, h2]
      exact ih acts fsw hc hl' hnd'
    · cases hbest : findHighestVersionLibrary g.2 with
      | none =>
        have h1 : processGroup true (acts, fs0) g = none := by
          simp [processGroup, he, hbest]
        have h2 : processGroup false (acts, fsw) g = none := by
          simp [processGroup, he, hbest]
        rw [h1, h2]
        rfl
      | some best =>
        by_cases hfn : fileNameOrEmpty best.path = g.1
        · have h1 : processGroup true (acts, fs0) g = some (acts, fs0) := by
            simp [processGroup, he, hbest, hfn]
          have h2 : processGroup false (acts, fsw) g = some (acts, fsw) := by
            simp [processGroup, he, hbest, hfn]
          rw [h1, h2]
          exact ih acts fsw hc hl' hnd'
        · by_cases hbp : best.path = []
          · rw [hbp] at hfn
            have h1 : processGroup true (acts, fs0) g = none := by
              simp [processGroup, he, hbest, hbp, hfn]
            have h2 : processGroup false (acts, fsw) g = none := by
              simp [processGroup, he, hbest, hbp, hfn]
            rw [h1, h2]
            rfl
          · have hllink : fsLookup fsw (dirOf best.path ++ [g.1]) =
                fsLookup fs0 (dirOf best.path ++ [g.1]) := by
              apply hl
              exact ⟨g, List.mem_cons_self g rest, by simp⟩
            have hsceq : shouldCreateSymlink fsw (dirOf best.path ++ [g.1]) best.path =
                shouldCreateSymlink fs0 (dirOf best.path ++ [g.1]) best.path :=
              shouldCreateSymlink_congr fs0 fsw _ _ hc hllink
            by_cases hscb : shouldCreateSymlink fs0 (dirOf best.path ++ [g.1])
                best.path = true
            · have hscw : shouldCreateSymlink fsw (dirOf best.path ++ [g.1])
                  best.path = true := hsceq.trans hscb
              have h1 : processGroup true (acts, fs0) g =
                  some (acts ++ [⟨fileNameOrEmpty best.path,
                    dirOf best.path ++ [g.1], .create⟩], fs0) := by
                simp [processGroup, he, hbest, hfn, hbp, hscb]
              have h2 : processGroup false (acts, fsw) g =
                  some (acts ++ [⟨fileNameOrEmpty best.path,
                    dirOf best.path ++ [g.1], .create⟩],
                    { fsw with objects :=
                        (dirOf best.path ++ [g.1],
                          .symlink [fileNameOrEmpty best.path]) ::
                          fsRemove fsw.objects (dirOf best.path ++ [g.1]) }) := by
                simp [processGroup, he, hbest, hfn, hbp, hscw]
              rw [h1, h2]
              apply ih
              · exact hc
              · intro p hp
                obtain ⟨g', hg', hpl⟩ := hp
                have hne : g'.1 ≠ g.1 := by
                  intro hEq
                  exact hgnot (hEq ▸ List.mem_map_of_mem Prod.fst hg')
                have hpne : p ≠ dirOf best.path ++ [g.1] := by
                  intro hEq
                  rw [hEq] at hpl
                  simp at hpl
                  exact hne hpl.symm
                have hbeq : (p == dirOf best.path ++ [g.1]) = false :=
                  beq_eq_false_iff_ne.2 hpne
                show List.lookup p _ = _
                simp only [fsLookup, List.lookup, hbeq]
                exact (lookup_fsRemove _ _ hpne fsw.objects).trans
                  (hl p ⟨g', List.mem_cons_of_mem g hg', hpl⟩)
              · exact hnd'
            · have hscb0 : shouldCreateSymlink fs0 (dirOf best.path ++ [g.1])
                  best.path = false := by
                revert hscb
                cases shouldCreateSymlink fs0 (dirOf best.path ++ [g.1]) best.path
                · intro _; rfl
                · intro hcon; exact absurd rfl hcon
              have hscw0 : shouldCreateSymlink fsw (dirOf best.path ++ [g.1])
                  best.path = false := hsceq.trans hscb0
              have h1 : processGroup true (acts, fs0) g = some (acts, fs0) := by
                simp [processGroup, he, hbest, hfn, hbp, hscb0]
              have h2 : processGroup false (acts, fsw) g = some (acts, fsw) := by
                simp [processGroup, he, hbest, hfn, hbp, hscw0]
              rw [h1, h2]
              exact ih acts fsw hc hl' hnd'

/-- C9: dry-run and non-dry reconciler runs over the same filesystem
state compute the same action list, and a dry run returns the
filesystem unchanged — no object is added, removed, or retargeted. -/
theorem c9_dry_run_frame (fs : Fs) (libs : List ElfLibrary) :
    (updateSymlinks fs libs true).map Prod.fst =
      (updateSymlinks fs libs false).map Prod.fst ∧
    ∀ (acts : List SymlinkAction) (fs' : Fs),
      updateSymlinks fs libs true = some (acts, fs') → fs' = fs := by
  constructor
  · have hmap : ∀ (l : List RStr) (f : RStr → List ElfLibrary),
        (l.map fun s => (s, f s)).map Prod.fst = l := by
      intro l f
      induction l with
      | nil => rfl
      | cons a t ih => simp [ih]
    refine foldlM_dry_wet fs _ [] fs rfl (fun p _ => rfl) ?_
    rw [hmap]
    exact groupSonames_nodup (realFileLibs fs libs)
  · intro acts fs' h
    exact foldlM_dry_fs _ [] fs (acts, fs') h

/-- Witness for C9 at the stale-symlink sample filesystem. -/
theorem c9_dry_run_frame_witness :
    ((updateSymlinks sampleFsStale [sampleReconLib] true).map Prod.fst =
      (updateSymlinks sampleFsStale [sampleReconLib] false).map Prod.fst) ∧
    sampleFsStale = sampleFsStale :=
  ⟨(c9_dry_run_frame sampleFsStale [sampleReconLib]).1,
   (c9_dry_run_frame sampleFsStale [sampleReconLib]).2
     [⟨bytesOf "libfoo.so.1.5",
       [bytesOf "usr", bytesOf "lib", bytesOf "libfoo.so.1"], .create⟩]
     sampleFsStale rfl⟩

end Ldconfig
